import Mathlib

/-!
# The rotating logger (code/log/log.cpp) and the thread pool (code/pool/threadpool.h)

A shallow embedding of `Log::init`, `Log::write`, `Log::AppendLogLevelTitle_`,
`Log::AsyncWrite_` and of the worker loop of `ThreadPool`, followed by the
properties proved about them.

Conventions of the embedding.

* A C string is the list of its characters, without the terminating NUL;
  `fputs` writes a text up to its first NUL character.
* The broken-down time that `localtime` returns is an input of every call.
  Its fields are natural numbers: the clock never yields a negative field.
* `lineCount_` and `toDay_` (declared in log.h) are natural numbers; the model
  follows the code as long as the counter stays within its machine type.
* The file system is the list of all `fputs` calls made so far, oldest first,
  each with the name of the file that was open; `fopen(name, "a")` succeeds
  (lines 91 and 127 assert it) and appends to whatever the file holds.
* `snprintf(dst, size, ...)` stores at most `size - 1` characters.  The bound
  is modelled where a caller-chosen string is printed (the file names); the
  bounds 128 (time stamp) and 36 (date part of a name) exceed what decimal
  numbers of 32 bits can fill and are left out.
* The staging buffer `buff_` is a `Buffer` (buffer.h), which is not among the
  sources; it is modelled from the spec as a buffer that `Append` grows on
  demand.  The bound `buff_.WritableBytes()` that line 141 gives to `vsnprintf`
  is an input of every call.
* Threads are modelled by the interleaving of their atomic steps, the critical
  sections of `mtx_` (logger) and of `pool->mtx` (thread pool).
-/

namespace Log

/-- Text of the model: the characters of a C string. -/
abbrev Str := List Char

/-- Constants that log.cpp uses and that are declared in headers outside the
sources at hand (log.h, blockqueue.h). -/
structure Config where
  /-- Size of the file-name arrays, `LOG_NAME_LEN`. -/
  LOG_NAME_LEN : Nat
  /-- Line budget of one file, `MAX_LINES`. -/
  MAX_LINES : Nat
  /-- Capacity of a default-constructed `BlockDeque`. -/
  dequeCapacity : Nat
  deriving DecidableEq, Repr

/-- The fields of `struct tm` that the logger reads. -/
structure Tm where
  tm_year : Nat
  tm_mon : Nat
  tm_mday : Nat
  tm_hour : Nat
  tm_min : Nat
  tm_sec : Nat
  deriving DecidableEq, Repr

/-- One call `Log::write(level, format, ...)`: the level, the formatted
message (the text that the format and its arguments expand to), the clock
reading of the call (`localtime` of `now.tv_sec`, and `now.tv_usec`), and the
value that `buff_.WritableBytes()` returns on line 141 during the call.  That
value is an input because `Buffer` (buffer.h) is not among the sources. -/
structure Call where
  level : Int
  msg : Str
  t : Tm
  tv_usec : Nat
  writable : Nat
  deriving DecidableEq, Repr

/-- Conversion `%d` of a non-negative number. -/
def fmtD (n : Nat) : Str := Nat.toDigits 10 n

/-- Conversion `%0wd` of a non-negative number: decimal, padded on the left
with zeros up to `w` characters. -/
def fmtD0 (w n : Nat) : Str :=
  List.replicate (w - (Nat.toDigits 10 n).length) '0' ++ Nat.toDigits 10 n

/-- What `snprintf(dst, size, ...)` leaves in `dst` when the conversion
produces `text`: at most `size - 1` characters.  (The sizes in the code are
`LOG_NAME_LEN - 1` and `LOG_NAME_LEN - 72`; the model is meant for a
`LOG_NAME_LEN` above 72, for which they are positive.) -/
def snprintf (size : Nat) (text : Str) : Str := text.take (size - 1)

/-- Modelled from the spec: `BlockDeque` (blockqueue.h is not among the
sources), a FIFO with a capacity fixed at construction; it is full when its
size has reached the capacity, `push_back` enqueues at the back and `pop`
takes the front. -/
structure BlockDeque where
  capacity : Nat
  items : List Str
  deriving DecidableEq, Repr

/-- Modelled from the spec: `BlockDeque::full`. -/
def BlockDeque.full (q : BlockDeque) : Bool := decide (q.capacity ≤ q.items.length)

/-- Modelled from the spec: `BlockDeque::push_back` on a queue that is not full. -/
def BlockDeque.push_back (q : BlockDeque) (x : Str) : BlockDeque :=
  { q with items := q.items ++ [x] }

/-- The members of a `Log` object on which `init` has run (so that `fp_` is an
open file), together with the record of what has been written.

`buff_` is the readable part of the staging buffer, up to the first NUL.
Modelled from the spec: `Buffer` (buffer.h is not among the sources) grows on
demand when text is handed to `Append`, and `RetrieveAll` empties it. -/
structure State where
  level_ : Int
  isOpen_ : Bool
  isAsync_ : Bool
  /-- The queue `deque_`, or `none` for `nullptr`; the flush thread
  `writeThread_` exists exactly when the queue does. -/
  deque_ : Option BlockDeque
  lineCount_ : Nat
  toDay_ : Nat
  path_ : Str
  suffix_ : Str
  /-- Name of the file that `fp_` has open. -/
  fp_ : Str
  buff_ : Str
  /-- Every `fputs` so far, oldest first: name of the file, text written. -/
  written : List (Str × Str)
  deriving DecidableEq, Repr

/-- The date part of a file name, `"%04d_%02d_%02d"` of year, month and day
(lines 74-75 and 111). -/
def dateTail (t : Tm) : Str :=
  fmtD0 4 (t.tm_year + 1900) ++ ['_'] ++ fmtD0 2 (t.tm_mon + 1) ++ ['_'] ++ fmtD0 2 t.tm_mday

/-- The name `Log::init` builds (lines 72-75):
`snprintf(fileName, LOG_NAME_LEN - 1, "%s/%04d_%02d_%02d%s", ...)`. -/
def initFileName (cfg : Config) (path suffix : Str) (t : Tm) : Str :=
  snprintf (cfg.LOG_NAME_LEN - 1) (path ++ ['/'] ++ dateTail t ++ suffix)

/-- The name a new-day rotation builds (line 115):
`snprintf(newFile, LOG_NAME_LEN - 72, "%s/%s%s", path_, tail, suffix_)`. -/
def newDayFileName (cfg : Config) (path suffix : Str) (t : Tm) : Str :=
  snprintf (cfg.LOG_NAME_LEN - 72) (path ++ ['/'] ++ dateTail t ++ suffix)

/-- The name an overflow rotation builds (line 120):
`snprintf(newFile, LOG_NAME_LEN - 72, "%s/%s-%d%s", path_, tail, shard, suffix_)`. -/
def overflowFileName (cfg : Config) (path suffix : Str) (t : Tm) (shard : Nat) : Str :=
  snprintf (cfg.LOG_NAME_LEN - 72) (path ++ ['/'] ++ dateTail t ++ ['-'] ++ fmtD shard ++ suffix)

/-- The part of `Log::init` (lines 45-93) that is common to a first and a
repeated call: `deque_` and `written` are what the object and the disk held
before, `t` is `localtime(time(nullptr))`. -/
def initCore (cfg : Config) (deque_ : Option BlockDeque) (written : List (Str × Str))
    (level : Int) (path suffix : Str) (maxQueueSize : Int) (t : Tm) : State :=
  { level_ := level
    isOpen_ := true
    isAsync_ := decide (maxQueueSize > 0)
    deque_ :=
      if maxQueueSize > 0 then
        match deque_ with
        | none => some { capacity := cfg.dequeCapacity, items := [] }
        | some q => some q
      else deque_
    lineCount_ := 0
    toDay_ := t.tm_mday
    path_ := path
    suffix_ := suffix
    fp_ := initFileName cfg path suffix t
    buff_ := []
    written := written }

/-- The first `Log::init` on the object that `Log::Log()` built
(`deque_ = nullptr`, `fp_ = nullptr`, nothing written yet). -/
def initFirst (cfg : Config) (level : Int) (path suffix : Str) (maxQueueSize : Int)
    (t : Tm) : State :=
  initCore cfg none [] level path suffix maxQueueSize t

/-- `Log::init` on a logger that is already open: the old file is flushed and
closed, the queue (if any) is kept. -/
def init (cfg : Config) (s : State) (level : Int) (path suffix : Str) (maxQueueSize : Int)
    (t : Tm) : State :=
  initCore cfg s.deque_ s.written level path suffix maxQueueSize t

/-- The tag that `Log::AppendLogLevelTitle_` appends (lines 156-174). -/
def levelTitle (level : Int) : Str :=
  if level = 0 then "[debug]: ".toList
  else if level = 1 then "[info] : ".toList
  else if level = 2 then "[warn] : ".toList
  else if level = 3 then "[error]: ".toList
  else "[info] : ".toList

/-- `Log::AppendLogLevelTitle_(level)`: `buff_.Append(tag, 9)`. -/
def AppendLogLevelTitle_ (s : State) (level : Int) : State :=
  { s with buff_ := s.buff_ ++ (levelTitle level).take 9 }

/-- The time stamp of a line (lines 133-135):
`"%d-%02d-%02d %02d:%02d:%02d.%06ld "`. -/
def timeStamp (c : Call) : Str :=
  fmtD (c.t.tm_year + 1900) ++ ['-'] ++ fmtD0 2 (c.t.tm_mon + 1) ++ ['-'] ++
    fmtD0 2 c.t.tm_mday ++ [' '] ++ fmtD0 2 c.t.tm_hour ++ [':'] ++ fmtD0 2 c.t.tm_min ++
    [':'] ++ fmtD0 2 c.t.tm_sec ++ ['.'] ++ fmtD0 6 c.tv_usec ++ [' ']

/-- The condition of line 104. -/
def needRotate (cfg : Config) (s : State) (t : Tm) : Bool :=
  s.toDay_ != t.tm_mday || (s.lineCount_ != 0 && s.lineCount_ % cfg.MAX_LINES == 0)

/-- The first block of `Log::write` (lines 104-128): the rotation.  `flush()`
and `fclose` change nothing that the model records. -/
def rotate (cfg : Config) (s : State) (t : Tm) : State :=
  if needRotate cfg s t then
    if s.toDay_ != t.tm_mday then
      { s with
        fp_ := newDayFileName cfg s.path_ s.suffix_ t
        toDay_ := t.tm_mday
        lineCount_ := 0 }
    else
      { s with
        fp_ := overflowFileName cfg s.path_ s.suffix_ t (s.lineCount_ / cfg.MAX_LINES) }
  else s

/-- The NUL character, which ends a C string. -/
def NUL : Char := Char.ofNat 0

/-- What of lines 141-145 reaches the file, after the tag.
`vsnprintf(buff_.BeginWrite(), buff_.WritableBytes(), format, vaList)` stores
the message and a NUL when the message is shorter than the writable bytes, and
`buff_.Append("\n\0", 2)` then puts the newline in the place of that NUL.
Otherwise `vsnprintf` stores one character less than the writable bytes and a
NUL; `HasWritten(m)` moves the cursor past that NUL, so that the newline lands
behind it.  In both cases `fputs` (lines 150 and 187) writes the C string, which
ends at the first NUL: a NUL inside the message ends the text there. -/
def stored (c : Call) : Str :=
  (if c.msg.length < c.writable then c.msg ++ ['\n']
    else c.msg.take (c.writable - 1)).takeWhile (fun ch => ch != NUL)

/-- The second block of `Log::write` (lines 130-153): count the line, build it
in the staging buffer, hand it to the queue or write it, reset the buffer. -/
def emit (s : State) (c : Call) : State :=
  let s1 := { s with lineCount_ := s.lineCount_ + 1, buff_ := s.buff_ ++ timeStamp c }
  let s2 := AppendLogLevelTitle_ s1 c.level
  let s3 := { s2 with buff_ := s2.buff_ ++ stored c }
  match s3.isAsync_, s3.deque_ with
  | true, some q =>
    if q.full then { s3 with written := s3.written ++ [(s3.fp_, s3.buff_)], buff_ := [] }
    else { s3 with deque_ := some (q.push_back s3.buff_), buff_ := [] }
  | _, _ => { s3 with written := s3.written ++ [(s3.fp_, s3.buff_)], buff_ := [] }

/-- `Log::write` (lines 95-154). -/
def write (cfg : Config) (s : State) (c : Call) : State :=
  emit (rotate cfg s c.t) c

/-- A sequence of `Log::write` calls, first call first: the steps of the caller
alone.  The flush thread, which an asynchronous `init` starts and a later
`init` keeps, takes its steps in `Sys.run`. -/
def writes (cfg : Config) (s : State) (cs : List Call) : State :=
  cs.foldl (write cfg) s

/-- The text that a call contributes to its file: time stamp, level tag, and
what the staging buffer holds of the message. -/
def lineOf (c : Call) : Str :=
  timeStamp c ++ levelTitle c.level ++ stored c

/-- Same calendar day: year, month and day of the month agree. -/
def SameDay (a b : Tm) : Prop :=
  a.tm_year = b.tm_year ∧ a.tm_mon = b.tm_mon ∧ a.tm_mday = b.tm_mday

instance instDecidableSameDay (a b : Tm) : Decidable (SameDay a b) := by
  unfold SameDay; infer_instance

/-- The file that receives the call number `j + 1` of a run of calls that
follows `init` and stays within the day `t0` of `init`: the file of `init` for
the first `MAX_LINES` calls, afterwards the shard with index `j / MAX_LINES`. -/
def fileAt (cfg : Config) (path suffix : Str) (t0 : Tm) (j : Nat) : Str :=
  if j < cfg.MAX_LINES then initFileName cfg path suffix t0
  else overflowFileName cfg path suffix t0 (j / cfg.MAX_LINES)

/-- The state of a synchronous logger that has taken `j` calls since `init`,
all within the day `t0` of `init`. -/
def SyncAt (cfg : Config) (path suffix : Str) (t0 : Tm) (s : State) (j : Nat) : Prop :=
  s.isAsync_ = false ∧ s.buff_ = [] ∧ s.path_ = path ∧ s.suffix_ = suffix ∧
    s.toDay_ = t0.tm_mday ∧ s.lineCount_ = j ∧ s.fp_ = fileAt cfg path suffix t0 (j - 1)

/-- An operation on the logger: `init` (with the clock reading it takes) or
`write`. -/
inductive Op where
  | init (level : Int) (path suffix : Str) (maxQueueSize : Int) (t : Tm)
  | write (c : Call)
  deriving DecidableEq, Repr

/-- One operation on an open logger. -/
def step (cfg : Config) (s : State) : Op → State
  | Op.init level path suffix maxQueueSize t => init cfg s level path suffix maxQueueSize t
  | Op.write c => write cfg s c

/-- A sequence of operations, first operation first. -/
def run (cfg : Config) (s : State) (ops : List Op) : State :=
  ops.foldl (step cfg) s

/-- Whether an operation keeps the logger synchronous: every `init` in it has
`maxQueueSize <= 0`. -/
def Op.isSync : Op → Bool
  | Op.init _ _ _ maxQueueSize _ => decide (maxQueueSize ≤ 0)
  | Op.write _ => true

/-! ### The logger with its flush thread -/

/-- The logger together with the flush thread `writeThread_` that runs
`Log::AsyncWrite_` (lines 183-189). -/
structure Sys where
  log : State
  /-- The local `str` of `AsyncWrite_`: a line that `pop` has returned and
  that `fputs` has not written yet. -/
  str : Option Str
  deriving DecidableEq, Repr

/-- The atomic steps of the caller thread and of the flush thread. -/
inductive Ev where
  /-- The caller runs the first block of `write` (lines 104-128). -/
  | rotate (t : Tm)
  /-- The caller runs the second block of `write` (lines 130-153), under `mtx_`. -/
  | emit (c : Call)
  /-- The flush thread returns from `deque_->pop(str)` with a line. -/
  | pop
  /-- The flush thread takes `mtx_` and runs `fputs(str.c_str(), fp_)`. -/
  | fputs
  deriving DecidableEq, Repr

/-- `deque_->pop(str)` in `AsyncWrite_`: takes the front of the queue; on an
empty queue the thread stays blocked. -/
def AsyncWrite_pop (y : Sys) : Sys :=
  match y.str, y.log.deque_ with
  | none, some q =>
    match q.items with
    | [] => y
    | x :: rest => { log := { y.log with deque_ := some { q with items := rest } }, str := some x }
  | _, _ => y

/-- The body of the loop of `AsyncWrite_`: `fputs(str.c_str(), fp_)` to the file
that is open at that moment. -/
def AsyncWrite_fputs (y : Sys) : Sys :=
  match y.str with
  | some x => { log := { y.log with written := y.log.written ++ [(y.log.fp_, x)] }, str := none }
  | none => y

/-- One atomic step of the system. -/
def Sys.step (cfg : Config) (y : Sys) : Ev → Sys
  | Ev.rotate t => { y with log := rotate cfg y.log t }
  | Ev.emit c => { y with log := emit y.log c }
  | Ev.pop => AsyncWrite_pop y
  | Ev.fputs => AsyncWrite_fputs y

/-- A schedule: the atomic steps in the order in which they happen. -/
def Sys.run (cfg : Config) (y : Sys) (evs : List Ev) : Sys :=
  evs.foldl (Sys.step cfg) y

/-- The steps of one uninterrupted call `write`. -/
def callEvs (c : Call) : List Ev := [Ev.rotate c.t, Ev.emit c]

/-- Whether `emit` on this logger takes the synchronous branch although the
logger is asynchronous: the queue is full (line 147). -/
def fallsBack (s : State) : Bool :=
  match s.isAsync_, s.deque_ with
  | true, some q => q.full
  | _, _ => false

/-- Number of `emit` steps of a schedule that find the queue full. -/
def fallbacks (cfg : Config) : Sys → List Ev → Nat
  | _, [] => 0
  | y, Ev.emit c :: evs =>
    (if fallsBack y.log then 1 else 0) + fallbacks cfg (Sys.step cfg y (Ev.emit c)) evs
  | y, ev :: evs => fallbacks cfg (Sys.step cfg y ev) evs

/-- The lines of the calls of a schedule, in call order. -/
def linesOf : List Ev → List Str
  | [] => []
  | Ev.emit c :: evs => lineOf c :: linesOf evs
  | _ :: evs => linesOf evs

/-- The full text that the format `"%s/%04d_%02d_%02d%s"` yields: the name of
the file of the day `d`. -/
def dayName (path suffix : Str) (d : Tm) : Str :=
  path ++ ['/'] ++ dateTail d ++ suffix

/-- The full text that the format `"%s/%s-%d%s"` yields: the name of a shard of
the day `d`. -/
def shardName (path suffix : Str) (d : Tm) (shard : Nat) : Str :=
  path ++ ['/'] ++ dateTail d ++ ['-'] ++ fmtD shard ++ suffix

/-- A name that encodes the date `d` as the layout on disk describes it:
`path/YYYY_MM_DD suffix`, or `path/YYYY_MM_DD-shard suffix` for a shard. -/
def EncodesDate (path suffix : Str) (d : Tm) (name : Str) : Prop :=
  name = dayName path suffix d ∨ ∃ shard : Nat, name = shardName path suffix d shard

/-- What a synchronous logger keeps as long as no name is cut and every change
of date changes the day of the month: the staging buffer is empty between
calls, the name of the open file encodes the date `d` of the latest operation
and `toDay_` is the day of the month of `d`. -/
def DateInv (s : State) (d : Tm) : Prop :=
  s.isAsync_ = false ∧ s.buff_ = [] ∧ EncodesDate s.path_ s.suffix_ d s.fp_ ∧
    d.tm_mday = s.toDay_

/-- Whether the name that an operation builds on the logger `s`, if it builds
one, fits the buffer it is printed to: `LOG_NAME_LEN - 1` bytes for `init`,
`LOG_NAME_LEN - 72` bytes for a rotation. -/
def opFits (cfg : Config) (s : State) : Op → Bool
  | Op.init _ path suffix _ t => decide ((dayName path suffix t).length + 1 ≤ cfg.LOG_NAME_LEN - 1)
  | Op.write c =>
    if s.toDay_ != c.t.tm_mday then
      decide ((dayName s.path_ s.suffix_ c.t).length + 1 ≤ cfg.LOG_NAME_LEN - 72)
    else if needRotate cfg s c.t then
      decide ((shardName s.path_ s.suffix_ c.t (s.lineCount_ / cfg.MAX_LINES)).length + 1
        ≤ cfg.LOG_NAME_LEN - 72)
    else true

/-- Whether every name built while the operations run, from `s` on, fits. -/
def namesFit (cfg : Config) : State → List Op → Bool
  | _, [] => true
  | s, op :: ops => opFits cfg s op && namesFit cfg (step cfg s op) ops

/-- Whether every `write` is stamped with the calendar date `last` of the
operation before it, or else with another day of the month. -/
def wellDated : Tm → List Op → Bool
  | _, [] => true
  | _, Op.init _ _ _ _ t :: ops => wellDated t ops
  | last, Op.write c :: ops =>
    decide (SameDay c.t last ∨ c.t.tm_mday ≠ last.tm_mday) && wellDated c.t ops

/-- What an asynchronous logger keeps as long as no call finds the queue
full: the lines written, then the line the flush thread holds, then the lines
in the queue are the lines of the calls so far, in call order. -/
def AsyncInv (y : Sys) (lines : List Str) : Prop :=
  y.log.isAsync_ = true ∧ y.log.buff_ = [] ∧
    ∃ q : BlockDeque, y.log.deque_ = some q ∧
      y.log.written.map Prod.snd ++ y.str.toList ++ q.items = lines

/-- The steps of `n` turns of the loop of `AsyncWrite_`, none interrupted. -/
def drainEvs (n : Nat) : List Ev := (List.replicate n [Ev.pop, Ev.fputs]).flatten

/-- The steps of the calls of `cs`, one after the other. -/
def callsEvs (cs : List Call) : List Ev := (cs.map callEvs).flatten

/-- An asynchronous logger that has written nothing, whose flush thread holds
nothing and whose queue of capacity `cap` holds `k` copies of `line`. -/
def Filled (y : Sys) (cap k : Nat) (line : Str) : Prop :=
  y.log.isAsync_ = true ∧ y.log.buff_ = [] ∧ y.str = none ∧ y.log.written = [] ∧
    y.log.deque_ = some ⟨cap, List.replicate k line⟩

/-- Whether a step belongs to the caller of `write` (and not to the flush
thread). -/
def Ev.isCaller : Ev → Bool
  | Ev.rotate _ => true
  | Ev.emit _ => true
  | Ev.pop => false
  | Ev.fputs => false

/-- A synchronous logger that has nothing left to flush: the flush thread (if
an earlier `init` started one) holds no line and the queue (if an earlier
`init` built one) is empty. -/
def SyncQuiet (y : Sys) : Prop :=
  y.str = none ∧ y.log.isAsync_ = false ∧ ∀ q, y.log.deque_ = some q → q.items = []

/-! ### Sample values used to evaluate the model -/

/-- Sample constants: names of 256 bytes, 50000 lines to a file, a queue of
1000 lines. -/
def sampleCfg : Config := ⟨256, 50000, 1000⟩

/-- Sample constants with a budget of two lines to a file. -/
def tinyCfg : Config := ⟨256, 2, 1000⟩

/-- The clock at `hour:min:sec` on 2024-01-`mday`. -/
def january (mday hour min sec : Nat) : Tm := ⟨124, 0, mday, hour, min, sec⟩

/-- The clock at `hour:min:sec` on 2024-02-`mday`. -/
def february (mday hour min sec : Nat) : Tm := ⟨124, 1, mday, hour, min, sec⟩

/-- A synchronous logger under "./log" with suffix ".log" that holds day 15 and
has counted `lineCount` lines. -/
def sampleState (lineCount : Nat) : State :=
  { level_ := 1, isOpen_ := true, isAsync_ := false, deque_ := none, lineCount_ := lineCount,
    toDay_ := 15, path_ := "./log".toList, suffix_ := ".log".toList,
    fp_ := "./log/2024_01_15.log".toList, buff_ := [], written := [] }

/-- A call at level 1 with the message `msg`, made with 988 writable bytes left
in the staging buffer. -/
def info (msg : String) (t : Tm) : Call := ⟨1, msg.toList, t, 0, 988⟩

/-- Sample operations on a logger opened on 2024-01-15: a line on that day, a
line on the 16th, then `init` again on 2024-02-17 under "./log2" with suffix
".txt". -/
def sampleOps : List Op :=
  [Op.write (info "a" (january 15 8 0 0)), Op.write (info "b" (january 16 8 0 0)),
    Op.init 1 "./log2".toList ".txt".toList 0 (february 17 7 0 0)]

/-- Value of a string of decimal digits. -/
def decVal (l : Str) : Nat := l.foldl (fun a c => 10 * a + (c.toNat - 48)) 0

end Log

namespace ThreadPool

/-- Where a worker thread stands in its loop (lines 26-39). -/
inductive Worker (α : Type) where
  /-- Holding the lock at the head of the loop, or inside `cond.wait`. -/
  | waiting
  /-- Inside `task()`, the lock released. -/
  | running (task : α)
  /-- Left the loop through `break`. -/
  | exited
  deriving DecidableEq, Repr

/-- The shared record `Pool` (lines 67-72) with the threads that hold it, and
the record of what has been run.  The mutex and the condition variable are
what makes the steps below atomic. -/
structure Pool (α : Type) where
  isClosed : Bool
  /-- The queue `tasks`, front first. -/
  tasks : List α
  workers : List (Worker α)
  /-- Worker and task of every `tasks.pop()` so far, oldest first. -/
  taken : List (Nat × α)
  /-- Worker and task of every call `task()` that has returned, oldest first. -/
  ran : List (Nat × α)
  deriving DecidableEq, Repr

/-- The atomic steps of the pool and of the threads that use it. -/
inductive Ev (α : Type) where
  /-- A call `AddTask(task)`. -/
  | AddTask (task : α)
  /-- The destructor: `isClosed = true`, `notify_all`. -/
  | close
  /-- Worker `i` makes its next move. -/
  | worker (i : Nat)
  deriving DecidableEq, Repr

/-- `ThreadPool::AddTask` (lines 57-64): `tasks.emplace(task)`. -/
def AddTask {α : Type} (p : Pool α) (task : α) : Pool α :=
  { p with tasks := p.tasks ++ [task] }

/-- The destructor (lines 47-55). -/
def close {α : Type} (p : Pool α) : Pool α :=
  { p with isClosed := true }

/-- The next move of worker `i` (lines 28-38): with the lock held it pops the
front task and starts it, or leaves the loop when the queue is empty and the
pool is closed, or waits; a running worker returns from `task()` and takes the
lock again. -/
def workerStep {α : Type} (p : Pool α) (i : Nat) : Pool α :=
  match p.workers.get? i with
  | some Worker.waiting =>
    match p.tasks with
    | task :: rest =>
      { p with
        tasks := rest
        workers := p.workers.set i (Worker.running task)
        taken := p.taken ++ [(i, task)] }
    | [] =>
      if p.isClosed then { p with workers := p.workers.set i Worker.exited }
      else p
  | some (Worker.running task) =>
    { p with
      workers := p.workers.set i Worker.waiting
      ran := p.ran ++ [(i, task)] }
  | _ => p

/-- One atomic step. -/
def step {α : Type} (p : Pool α) : Ev α → Pool α
  | Ev.AddTask task => AddTask p task
  | Ev.close => close p
  | Ev.worker i => workerStep p i

/-- A schedule, first step first. -/
def run {α : Type} (p : Pool α) (evs : List (Ev α)) : Pool α :=
  evs.foldl step p

/-- The tasks a schedule submits, in submission order. -/
def submitted {α : Type} : List (Ev α) → List α
  | [] => []
  | Ev.AddTask task :: evs => task :: submitted evs
  | _ :: evs => submitted evs

/-- Every `AddTask` of the schedule happens before the pool is closed. -/
def addsBeforeClose {α : Type} : List (Ev α) → Bool
  | [] => true
  | Ev.close :: evs => (submitted evs).isEmpty
  | _ :: evs => addsBeforeClose evs

/-- A schedule that is admissible from the pool `p`: its calls of `AddTask`
come before `close`, and there is none when `p` is closed already. -/
def Admissible {α : Type} (p : Pool α) (evs : List (Ev α)) : Prop :=
  addsBeforeClose evs = true ∧ (p.isClosed = true → submitted evs = [])

end ThreadPool


/-- C2: `Log::AppendLogLevelTitle_` appends "[debug]: " for level 0,
"[info] : " for level 1, "[warn] : " for level 2, "[error]: " for level 3 and,
for every other level (negative or above 3, such as 99), exactly what it
appends for level 1; every tag is exactly 9 bytes long. -/
theorem Log.AppendLogLevelTitle_spec (s : Log.State) (level : Int) :
    (Log.AppendLogLevelTitle_ s 0).buff_ = s.buff_ ++ "[debug]: ".toList
      ∧ (Log.AppendLogLevelTitle_ s 1).buff_ = s.buff_ ++ "[info] : ".toList
      ∧ (Log.AppendLogLevelTitle_ s 2).buff_ = s.buff_ ++ "[warn] : ".toList
      ∧ (Log.AppendLogLevelTitle_ s 3).buff_ = s.buff_ ++ "[error]: ".toList
      ∧ Log.AppendLogLevelTitle_ s level =
          Log.AppendLogLevelTitle_ s (if 0 ≤ level ∧ level ≤ 3 then level else 1)
      ∧ Log.AppendLogLevelTitle_ s 99 = Log.AppendLogLevelTitle_ s 1
      ∧ (Log.AppendLogLevelTitle_ s level).buff_ = s.buff_ ++ Log.levelTitle level
      ∧ (Log.levelTitle level).length = 9
      ∧ (String.mk (Log.levelTitle level)).utf8ByteSize = 9 := by
  refine ⟨rfl, rfl, rfl, rfl, ?_, rfl, ?_, ?_, ?_⟩
  · by_cases h : 0 ≤ level ∧ level ≤ 3
    · rw [if_pos h]
    · rw [if_neg h]
      have h0 : level ≠ 0 := fun e => h (by omega)
      have h1 : level ≠ 1 := fun e => h (by omega)
      have h2 : level ≠ 2 := fun e => h (by omega)
      have h3 : level ≠ 3 := fun e => h (by omega)
      simp [Log.AppendLogLevelTitle_, Log.levelTitle, h0, h1, h2, h3]
  · unfold Log.AppendLogLevelTitle_ Log.levelTitle
    split_ifs <;> rfl
  · unfold Log.levelTitle
    split_ifs <;> rfl
  · unfold Log.levelTitle
    split_ifs <;> rfl

namespace Log

/-! ### Basic facts about the two blocks of `write` -/

theorem rotate_of_not_need {cfg : Config} {s : State} {t : Tm}
    (h : needRotate cfg s t = false) : rotate cfg s t = s := by
  simp [rotate, h]

theorem rotate_new_day (cfg : Config) {s : State} {t : Tm} (h : s.toDay_ ≠ t.tm_mday) :
    rotate cfg s t =
      { s with
        fp_ := newDayFileName cfg s.path_ s.suffix_ t
        toDay_ := t.tm_mday
        lineCount_ := 0 } := by
  simp [rotate, needRotate, h]

theorem rotate_overflow (cfg : Config) {s : State} {t : Tm} (hday : s.toDay_ = t.tm_mday)
    (hpos : 0 < s.lineCount_) (hmul : s.lineCount_ % cfg.MAX_LINES = 0) :
    rotate cfg s t =
      { s with
        fp_ := overflowFileName cfg s.path_ s.suffix_ t (s.lineCount_ / cfg.MAX_LINES) } := by
  have h0 : s.lineCount_ ≠ 0 := by omega
  simp [rotate, needRotate, hday, h0, hmul]

theorem needRotate_false_iff {cfg : Config} {s : State} {t : Tm} :
    needRotate cfg s t = false ↔
      s.toDay_ = t.tm_mday ∧ (s.lineCount_ = 0 ∨ s.lineCount_ % cfg.MAX_LINES ≠ 0) := by
  simp [needRotate]
  tauto

/-- What `emit` does when the line is written at once (synchronous mode). -/
theorem emit_sync {s : State} (c : Call) (h : s.isAsync_ = false) :
    emit s c =
      { s with
        lineCount_ := s.lineCount_ + 1
        buff_ := []
        written := s.written ++ [(s.fp_, s.buff_ ++ lineOf c)] } := by
  have hl : (levelTitle c.level).take 9 = levelTitle c.level := by
    unfold levelTitle; split_ifs <;> rfl
  simp [emit, AppendLogLevelTitle_, h, lineOf, hl, List.append_assoc]

theorem write_written_sync (cfg : Config) {s : State} (c : Call) (h : s.isAsync_ = false) :
    (write cfg s c).written = s.written ++ [((rotate cfg s c.t).fp_, s.buff_ ++ lineOf c)] := by
  have hr : (rotate cfg s c.t).isAsync_ = false := by
    unfold rotate; split_ifs <;> simpa using h
  have hb : (rotate cfg s c.t).buff_ = s.buff_ := by
    unfold rotate; split_ifs <;> rfl
  have hw : (rotate cfg s c.t).written = s.written := by
    unfold rotate; split_ifs <;> rfl
  rw [write, emit_sync c hr, hb, hw]

theorem fileAt_succ_of_not_mul {cfg : Config} {path suffix : Str} {t0 : Tm} {j : Nat}
    (h : j = 0 ∨ j % cfg.MAX_LINES ≠ 0) (hL : 0 < cfg.MAX_LINES) :
    fileAt cfg path suffix t0 (j - 1) = fileAt cfg path suffix t0 j := by
  rcases h with h | h
  · subst h; rfl
  · unfold fileAt
    by_cases hj : j < cfg.MAX_LINES
    · have : j - 1 < cfg.MAX_LINES := by omega
      rw [if_pos hj, if_pos this]
    · have hne : j ≠ cfg.MAX_LINES := by
        intro e; apply h; rw [e]; exact Nat.mod_self _
      have : ¬ (j - 1 < cfg.MAX_LINES) := by omega
      rw [if_neg hj, if_neg this]
      have hdiv : (j - 1) / cfg.MAX_LINES = j / cfg.MAX_LINES := by
        obtain ⟨i, rfl⟩ : ∃ i, j = i + 1 := ⟨j - 1, by omega⟩
        have := Nat.succ_div i cfg.MAX_LINES
        have hnd : ¬ (cfg.MAX_LINES ∣ i + 1) := fun hd => h (Nat.mod_eq_zero_of_dvd hd)
        simp only [hnd, if_false, Nat.add_zero] at this
        simpa using this.symm
      rw [hdiv]

theorem dateTail_sameDay {a b : Tm} (h : SameDay a b) : dateTail a = dateTail b := by
  obtain ⟨h1, h2, h3⟩ := h
  simp [dateTail, h1, h2, h3]

/-- One call on a synchronous logger that stays within the day of `init`. -/
theorem write_syncAt {cfg : Config} {path suffix : Str} {t0 : Tm} {s : State} {j : Nat}
    (c : Call) (hs : SyncAt cfg path suffix t0 s j) (hc : SameDay c.t t0)
    (hL : 0 < cfg.MAX_LINES) :
    SyncAt cfg path suffix t0 (write cfg s c) (j + 1) ∧
      (write cfg s c).written = s.written ++ [(fileAt cfg path suffix t0 j, lineOf c)] ∧
      needRotate cfg s c.t = decide (j ≠ 0 ∧ j % cfg.MAX_LINES = 0) := by
  obtain ⟨hasync, hbuf, hpath, hsuf, hday, hcount, hfp⟩ := hs
  have hday2 : s.toDay_ = c.t.tm_mday := by rw [hday]; exact hc.2.2.symm
  by_cases hrot : j ≠ 0 ∧ j % cfg.MAX_LINES = 0
  · have hr := rotate_overflow cfg (s := s) (t := c.t) hday2
      (by rw [hcount]; omega) (by rw [hcount]; exact hrot.2)
    have hge : ¬ (j < cfg.MAX_LINES) := by
      intro hlt
      have := Nat.mod_eq_of_lt hlt
      omega
    have hname : (rotate cfg s c.t).fp_ = fileAt cfg path suffix t0 j := by
      rw [hr]
      simp only [fileAt, if_neg hge, hpath, hsuf, hcount, overflowFileName,
        dateTail_sameDay hc]
    have hn : needRotate cfg s c.t = true := by
      simp [needRotate, hcount, hrot.1, hrot.2]
    refine ⟨⟨?_, ?_, ?_, ?_, ?_, ?_, ?_⟩, ?_, ?_⟩
    · rw [write, emit_sync c (by rw [hr]; exact hasync)]
      rw [hr]; exact hasync
    · rw [write, emit_sync c (by rw [hr]; exact hasync)]
    · rw [write, emit_sync c (by rw [hr]; exact hasync)]
      rw [hr]; exact hpath
    · rw [write, emit_sync c (by rw [hr]; exact hasync)]
      rw [hr]; exact hsuf
    · rw [write, emit_sync c (by rw [hr]; exact hasync)]
      rw [hr]; exact hday
    · rw [write, emit_sync c (by rw [hr]; exact hasync)]
      rw [hr]; simp [hcount]
    · rw [write, emit_sync c (by rw [hr]; exact hasync)]
      simpa using hname
    · rw [write_written_sync cfg c hasync, hname, hbuf, List.nil_append]
    · rw [hn]; simp [hrot]
  · have hn : needRotate cfg s c.t = false := by
      rw [needRotate_false_iff]
      refine ⟨hday2, ?_⟩
      rw [hcount]
      by_cases h0 : j = 0
      · exact Or.inl h0
      · exact Or.inr (fun h => hrot ⟨h0, h⟩)
    have hr := rotate_of_not_need hn
    have hfile : fileAt cfg path suffix t0 (j - 1) = fileAt cfg path suffix t0 j := by
      apply fileAt_succ_of_not_mul _ hL
      by_cases h0 : j = 0
      · exact Or.inl h0
      · exact Or.inr (fun h => hrot ⟨h0, h⟩)
    refine ⟨⟨?_, ?_, ?_, ?_, ?_, ?_, ?_⟩, ?_, ?_⟩
    · rw [write, hr, emit_sync c hasync]; exact hasync
    · rw [write, hr, emit_sync c hasync]
    · rw [write, hr, emit_sync c hasync]; exact hpath
    · rw [write, hr, emit_sync c hasync]; exact hsuf
    · rw [write, hr, emit_sync c hasync]; exact hday
    · rw [write, hr, emit_sync c hasync]; simp [hcount]
    · rw [write, hr, emit_sync c hasync]; simpa [hfile] using hfp
    · rw [write_written_sync cfg c hasync, hr, hfp, hfile, hbuf, List.nil_append]
    · rw [hn]; simp [hrot]

/-- A run of calls on a synchronous logger that stays within the day of `init`. -/
theorem writes_syncAt (cfg : Config) {path suffix : Str} {t0 : Tm} (hL : 0 < cfg.MAX_LINES) :
    ∀ (cs : List Call) (s : State) (j : Nat), SyncAt cfg path suffix t0 s j →
      (∀ c ∈ cs, SameDay c.t t0) →
      SyncAt cfg path suffix t0 (writes cfg s cs) (j + cs.length) ∧
        (writes cfg s cs).written = s.written ++
          (cs.enumFrom j).map (fun p => (fileAt cfg path suffix t0 p.1, lineOf p.2)) := by
  intro cs
  induction cs with
  | nil => intro s j hs _; simpa [writes] using hs
  | cons c cs ih =>
    intro s j hs hday
    obtain ⟨h1, h2, _⟩ := write_syncAt c hs (hday c (List.mem_cons_self _ _)) hL
    obtain ⟨h3, h4⟩ := ih (write cfg s c) (j + 1) h1
      (fun c' hc' => hday c' (List.mem_cons_of_mem _ hc'))
    refine ⟨?_, ?_⟩
    · have : j + (c :: cs).length = j + 1 + cs.length := by simp; omega
      rw [this]; exact h3
    · show (writes cfg (write cfg s c) cs).written = _
      rw [h4, h2]
      simp [List.enumFrom]

theorem initCore_syncAt (cfg : Config) (dq : Option BlockDeque) (wr : List (Str × Str))
    (level : Int) (path suffix : Str) (maxQueueSize : Int) (t0 : Tm) (h : maxQueueSize ≤ 0)
    (hL : 0 < cfg.MAX_LINES) :
    SyncAt cfg path suffix t0 (initCore cfg dq wr level path suffix maxQueueSize t0) 0 := by
  have hq : ¬ (maxQueueSize > 0) := by omega
  refine ⟨?_, rfl, rfl, rfl, rfl, rfl, ?_⟩
  · simp [initCore, hq]
  · simp [initCore, fileAt, hL]

theorem enumFrom_map_const {β γ : Type} (f : Nat → β) (g : Call → γ) (a : β) :
    ∀ (cs : List Call) (j : Nat), (∀ i, j ≤ i → i < j + cs.length → f i = a) →
      (cs.enumFrom j).map (fun p => (f p.1, g p.2)) = cs.map (fun c => (a, g c)) := by
  intro cs
  induction cs with
  | nil => intro j _; rfl
  | cons c cs ih =>
    intro j h
    simp only [List.enumFrom, List.map_cons]
    rw [h j (le_refl _) (by simp), ih (j + 1) (fun i h1 h2 => h i (by omega) (by simp; omega))]

end Log

namespace Log

theorem emit_fields (s : State) (c : Call) :
    (emit s c).lineCount_ = s.lineCount_ + 1 ∧ (emit s c).toDay_ = s.toDay_ ∧
      (emit s c).fp_ = s.fp_ ∧ (emit s c).path_ = s.path_ ∧ (emit s c).suffix_ = s.suffix_ ∧
      (emit s c).isAsync_ = s.isAsync_ ∧ (emit s c).buff_ = [] := by
  unfold emit AppendLogLevelTitle_
  simp only
  split
  · split <;> exact ⟨rfl, rfl, rfl, rfl, rfl, rfl, rfl⟩
  · exact ⟨rfl, rfl, rfl, rfl, rfl, rfl, rfl⟩

theorem rotate_fields (cfg : Config) (s : State) (t : Tm) :
    (rotate cfg s t).path_ = s.path_ ∧ (rotate cfg s t).suffix_ = s.suffix_ ∧
      (rotate cfg s t).isAsync_ = s.isAsync_ ∧ (rotate cfg s t).buff_ = s.buff_ ∧
      (rotate cfg s t).written = s.written ∧ (rotate cfg s t).deque_ = s.deque_ ∧
      (rotate cfg s t).toDay_ = t.tm_mday := by
  unfold rotate
  split_ifs with h1 h2
  · exact ⟨rfl, rfl, rfl, rfl, rfl, rfl, rfl⟩
  · refine ⟨rfl, rfl, rfl, rfl, rfl, rfl, ?_⟩
    simpa using h2
  · refine ⟨rfl, rfl, rfl, rfl, rfl, rfl, ?_⟩
    have h3 : needRotate cfg s t = false := by simpa using h1
    exact (needRotate_false_iff.1 h3).1

/-- A call stamped with the day of the month that the logger holds. -/
theorem write_same_mday (cfg : Config) (s : State) (c : Call) (h : s.toDay_ = c.t.tm_mday) :
    (write cfg s c).lineCount_ = s.lineCount_ + 1 ∧ (write cfg s c).toDay_ = s.toDay_ ∧
      (write cfg s c).path_ = s.path_ ∧ (write cfg s c).suffix_ = s.suffix_ := by
  have hl : (rotate cfg s c.t).lineCount_ = s.lineCount_ := by
    unfold rotate
    split_ifs with h1 h2
    · exact absurd h (by simpa using h2)
    · rfl
    · rfl
  obtain ⟨e1, e2, _, e4, e5, _, _⟩ := emit_fields (rotate cfg s c.t) c
  obtain ⟨r1, r2, _, _, _, _, r7⟩ := rotate_fields cfg s c.t
  unfold write
  exact ⟨by rw [e1, hl], by rw [e2, r7, h], by rw [e4, r1], by rw [e5, r2]⟩

/-- A run of calls all stamped with the day of the month that the logger holds. -/
theorem writes_same_mday (cfg : Config) :
    ∀ (cs : List Call) (s : State), (∀ x ∈ cs, x.t.tm_mday = s.toDay_) →
      (writes cfg s cs).lineCount_ = s.lineCount_ + cs.length ∧
        (writes cfg s cs).toDay_ = s.toDay_ ∧ (writes cfg s cs).path_ = s.path_ ∧
        (writes cfg s cs).suffix_ = s.suffix_ := by
  intro cs
  induction cs with
  | nil => intro s _; exact ⟨rfl, rfl, rfl, rfl⟩
  | cons c cs ih =>
    intro s h
    obtain ⟨w1, w2, w3, w4⟩ := write_same_mday cfg s c (h c (List.mem_cons_self _ _)).symm
    obtain ⟨i1, i2, i3, i4⟩ := ih (write cfg s c)
      (fun x hx => by rw [w2]; exact h x (List.mem_cons_of_mem _ hx))
    show (writes cfg (write cfg s c) cs).lineCount_ = _ ∧ (writes cfg (write cfg s c) cs).toDay_ = _
      ∧ (writes cfg (write cfg s c) cs).path_ = _ ∧ (writes cfg (write cfg s c) cs).suffix_ = _
    refine ⟨?_, by rw [i2, w2], by rw [i3, w3], by rw [i4, w4]⟩
    rw [i1, w1, List.length_cons]; omega

end Log

/-- The new-day branch of the rotation (lines 113-118), in terms of the name
builder of line 115. -/
theorem Log.write_new_day_core (cfg : Log.Config) (s : Log.State) (c : Log.Call)
    (h : s.toDay_ ≠ c.t.tm_mday) :
    Log.needRotate cfg s c.t = true
      ∧ (Log.rotate cfg s c.t).fp_ = Log.newDayFileName cfg s.path_ s.suffix_ c.t
      ∧ (Log.rotate cfg s c.t).toDay_ = c.t.tm_mday
      ∧ (Log.rotate cfg s c.t).lineCount_ = 0
      ∧ (Log.write cfg s c).fp_ = Log.newDayFileName cfg s.path_ s.suffix_ c.t
      ∧ (Log.write cfg s c).toDay_ = c.t.tm_mday
      ∧ (Log.write cfg s c).lineCount_ = 1 := by
  have hr := Log.rotate_new_day cfg h
  obtain ⟨e1, e2, e3, _⟩ := Log.emit_fields (Log.rotate cfg s c.t) c
  refine ⟨by simp [Log.needRotate, h], by rw [hr], by rw [hr], by rw [hr], ?_, ?_, ?_⟩
  · rw [Log.write, e3, hr]
  · rw [Log.write, e2, hr]
  · rw [Log.write, e1, hr]

/-- The overflow branch of the rotation (line 120) and the calls that follow
it, in terms of the name builder of line 120. -/
theorem Log.write_overflow_core (cfg : Log.Config) (s : Log.State) (c : Log.Call)
    (hday : s.toDay_ = c.t.tm_mday) (hpos : 0 < s.lineCount_)
    (hmul : s.lineCount_ % cfg.MAX_LINES = 0) :
    Log.needRotate cfg s c.t = true
      ∧ (Log.rotate cfg s c.t).fp_ =
          Log.overflowFileName cfg s.path_ s.suffix_ c.t (s.lineCount_ / cfg.MAX_LINES)
      ∧ 1 ≤ s.lineCount_ / cfg.MAX_LINES
      ∧ (Log.rotate cfg s c.t).toDay_ = s.toDay_
      ∧ (Log.rotate cfg s c.t).lineCount_ = s.lineCount_
      ∧ (Log.write cfg s c).fp_ =
          Log.overflowFileName cfg s.path_ s.suffix_ c.t (s.lineCount_ / cfg.MAX_LINES)
      ∧ (Log.write cfg s c).toDay_ = s.toDay_
      ∧ (Log.write cfg s c).lineCount_ = s.lineCount_ + 1
      ∧ ∀ (cs : List Log.Call) (c2 : Log.Call),
          (∀ x ∈ cs, x.t.tm_mday = s.toDay_) → c2.t.tm_mday = s.toDay_ →
          cs.length + 1 = cfg.MAX_LINES →
          (∀ (k : Nat) (hk : k < cs.length),
              Log.needRotate cfg (Log.writes cfg (Log.write cfg s c) (cs.take k))
                (cs.get ⟨k, hk⟩).t = false)
            ∧ Log.needRotate cfg (Log.writes cfg (Log.write cfg s c) cs) c2.t = true
            ∧ (Log.rotate cfg (Log.writes cfg (Log.write cfg s c) cs) c2.t).fp_ =
                Log.overflowFileName cfg s.path_ s.suffix_ c2.t
                  (s.lineCount_ / cfg.MAX_LINES + 1) := by
  have hr := Log.rotate_overflow cfg hday hpos hmul
  have hL : 0 < cfg.MAX_LINES := by
    rcases Nat.eq_zero_or_pos cfg.MAX_LINES with h0 | h0
    · rw [h0, Nat.mod_zero] at hmul; omega
    · exact h0
  have hge : 1 ≤ s.lineCount_ / cfg.MAX_LINES := by
    have hle : cfg.MAX_LINES ≤ s.lineCount_ :=
      Nat.le_of_dvd hpos (Nat.dvd_of_mod_eq_zero hmul)
    exact (Nat.le_div_iff_mul_le hL).2 (by simpa using hle)
  obtain ⟨e1, e2, e3, _⟩ := Log.emit_fields (Log.rotate cfg s c.t) c
  obtain ⟨w1, w2, w3, w4⟩ := Log.write_same_mday cfg s c hday
  have hn : Log.needRotate cfg s c.t = true := by
    have : s.lineCount_ ≠ 0 := by omega
    simp [Log.needRotate, this, hmul]
  refine ⟨hn, by rw [hr], hge, by rw [hr], by rw [hr], ?_, w2, w1, ?_⟩
  · rw [Log.write, e3, hr]
  · intro cs c2 hcs hc2 hlen
    have hrun : ∀ k, k ≤ cs.length →
        (Log.writes cfg (Log.write cfg s c) (cs.take k)).lineCount_ = s.lineCount_ + 1 + k ∧
        (Log.writes cfg (Log.write cfg s c) (cs.take k)).toDay_ = s.toDay_ ∧
        (Log.writes cfg (Log.write cfg s c) (cs.take k)).path_ = s.path_ ∧
        (Log.writes cfg (Log.write cfg s c) (cs.take k)).suffix_ = s.suffix_ := by
      intro k hk
      obtain ⟨i1, i2, i3, i4⟩ := Log.writes_same_mday cfg (cs.take k) (Log.write cfg s c)
        (fun x hx => by rw [w2]; exact hcs x (List.mem_of_mem_take hx))
      refine ⟨?_, by rw [i2, w2], by rw [i3, w3], by rw [i4, w4]⟩
      rw [i1, w1, List.length_take]; omega
    refine ⟨?_, ?_, ?_⟩
    · intro k hk
      obtain ⟨i1, i2, _, _⟩ := hrun k (le_of_lt hk)
      rw [Log.needRotate_false_iff]
      refine ⟨by rw [i2]; exact (hcs _ (List.get_mem _ _ _)).symm, Or.inr ?_⟩
      rw [i1]
      have h1 : (s.lineCount_ + 1 + k) % cfg.MAX_LINES = (1 + k) % cfg.MAX_LINES := by
        rw [Nat.add_assoc, Nat.add_mod, hmul, Nat.zero_add, Nat.mod_mod]
      rw [h1, Nat.mod_eq_of_lt (by omega)]
      omega
    · obtain ⟨i1, i2, _, _⟩ := hrun cs.length (le_refl _)
      rw [List.take_length] at i1 i2
      have h1 : (s.lineCount_ + 1 + cs.length) % cfg.MAX_LINES = 0 := by
        have e : s.lineCount_ + 1 + cs.length = s.lineCount_ + cfg.MAX_LINES := by omega
        rw [e, Nat.add_mod_right]; exact hmul
      simp [Log.needRotate, i1, i2, hc2, h1]
    · obtain ⟨i1, i2, i3, i4⟩ := hrun cs.length (le_refl _)
      rw [List.take_length] at i1 i2 i3 i4
      have h1 : (s.lineCount_ + 1 + cs.length) % cfg.MAX_LINES = 0 := by
        have e : s.lineCount_ + 1 + cs.length = s.lineCount_ + cfg.MAX_LINES := by omega
        rw [e, Nat.add_mod_right]; exact hmul
      rw [Log.rotate_overflow cfg (by rw [i2, hc2]) (by rw [i1]; omega) (by rw [i1]; exact h1)]
      simp only [i1, i3, i4]
      have h2 : (s.lineCount_ + 1 + cs.length) / cfg.MAX_LINES =
          s.lineCount_ / cfg.MAX_LINES + 1 := by
        have e : s.lineCount_ + 1 + cs.length = s.lineCount_ + cfg.MAX_LINES := by omega
        rw [e, Nat.add_div_right _ hL]
      rw [h2]

namespace Log

theorem snprintf_of_fits {size : Nat} {text : Str} (h : text.length + 1 ≤ size) :
    snprintf size text = text := by
  unfold snprintf
  exact List.take_of_length_le (by omega)

theorem snprintf_length_le (size : Nat) (text : Str) :
    (snprintf size text).length ≤ size - 1 := by
  unfold snprintf
  rw [List.length_take]
  exact Nat.min_le_left _ _

theorem newDayFileName_eq (cfg : Config) (path suffix : Str) (t : Tm) :
    newDayFileName cfg path suffix t =
      List.take (cfg.LOG_NAME_LEN - 72 - 1)
        (path ++ ['/'] ++ fmtD0 4 (t.tm_year + 1900) ++ ['_'] ++ fmtD0 2 (t.tm_mon + 1)
          ++ ['_'] ++ fmtD0 2 t.tm_mday ++ suffix) := by
  simp only [newDayFileName, snprintf, dateTail, List.append_assoc]

theorem overflowFileName_eq (cfg : Config) (path suffix : Str) (t : Tm) (shard : Nat) :
    overflowFileName cfg path suffix t shard =
      List.take (cfg.LOG_NAME_LEN - 72 - 1)
        (path ++ ['/'] ++ fmtD0 4 (t.tm_year + 1900) ++ ['_'] ++ fmtD0 2 (t.tm_mon + 1)
          ++ ['_'] ++ fmtD0 2 t.tm_mday ++ ['-'] ++ fmtD shard ++ suffix) := by
  simp only [overflowFileName, snprintf, dateTail, List.append_assoc]

theorem take_of_fits {n : Nat} {text : Str} (h : text.length + 1 ≤ n) :
    List.take (n - 1) text = text :=
  List.take_of_length_le (by omega)

end Log

/-- C3, as stated, fails: whatever the constants (with `LOG_NAME_LEN` above the
72 that line 115 subtracts from it), for a logger whose `path_` has
`LOG_NAME_LEN` characters the new-day rotation opens a file whose name is the
beginning of the path, cut by `snprintf`, not a name built from the new
date. -/
theorem Log.write_new_day_counterexample :
    ¬ ∃ cfg : Log.Config, 72 < cfg.LOG_NAME_LEN ∧
      ∀ (s : Log.State) (c : Log.Call), s.toDay_ ≠ c.t.tm_mday →
        (Log.write cfg s c).fp_ =
          s.path_ ++ ['/'] ++ Log.fmtD0 4 (c.t.tm_year + 1900) ++ ['_']
            ++ Log.fmtD0 2 (c.t.tm_mon + 1) ++ ['_'] ++ Log.fmtD0 2 c.t.tm_mday ++ s.suffix_ := by
  rintro ⟨cfg, _, h⟩
  have hd : (Log.State.mk 1 true false none 0 15
      (List.replicate cfg.LOG_NAME_LEN 'a') ".log".toList "x".toList [] []).toDay_ ≠
      (Log.info "x" (Log.january 16 0 0 0)).t.tm_mday := by
    show (15 : Nat) ≠ 16
    decide
  have h1 := h _ (Log.info "x" (Log.january 16 0 0 0)) hd
  have h2 := (Log.write_new_day_core cfg _ (Log.info "x" (Log.january 16 0 0 0)) hd).2.2.2.2.1
  rw [h2, Log.newDayFileName_eq] at h1
  have h3 := congrArg List.length h1
  simp only [List.length_take, List.length_append, List.length_replicate, List.length_cons,
    List.length_nil] at h3
  omega

/-- C3, amended: a call of `Log::write` whose time stamp has a day different
from `toDay_` rotates for a new day, whatever the state of the logger (also
when `lineCount_` is a positive multiple of `MAX_LINES`): the file it opens
has the name `path_/YYYY_MM_DD suffix_` built from the new date, without a
shard index, cut to `LOG_NAME_LEN - 73` characters, hence exactly that name
when the name has fewer than `LOG_NAME_LEN - 72` characters; `toDay_` becomes
the new day and the rotation resets `lineCount_` to 0 (the call then counts
its own line). -/
theorem Log.write_new_day (cfg : Log.Config) (s : Log.State) (c : Log.Call)
    (h : s.toDay_ ≠ c.t.tm_mday) :
    Log.needRotate cfg s c.t = true
      ∧ (Log.rotate cfg s c.t).toDay_ = c.t.tm_mday
      ∧ (Log.rotate cfg s c.t).lineCount_ = 0
      ∧ (Log.write cfg s c).fp_ =
          List.take (cfg.LOG_NAME_LEN - 72 - 1)
            (s.path_ ++ ['/'] ++ Log.fmtD0 4 (c.t.tm_year + 1900) ++ ['_']
              ++ Log.fmtD0 2 (c.t.tm_mon + 1) ++ ['_'] ++ Log.fmtD0 2 c.t.tm_mday ++ s.suffix_)
      ∧ ((s.path_ ++ ['/'] ++ Log.fmtD0 4 (c.t.tm_year + 1900) ++ ['_']
              ++ Log.fmtD0 2 (c.t.tm_mon + 1) ++ ['_'] ++ Log.fmtD0 2 c.t.tm_mday
              ++ s.suffix_).length + 1 ≤ cfg.LOG_NAME_LEN - 72 →
          (Log.write cfg s c).fp_ =
            s.path_ ++ ['/'] ++ Log.fmtD0 4 (c.t.tm_year + 1900) ++ ['_']
              ++ Log.fmtD0 2 (c.t.tm_mon + 1) ++ ['_'] ++ Log.fmtD0 2 c.t.tm_mday ++ s.suffix_)
      ∧ (Log.write cfg s c).toDay_ = c.t.tm_mday
      ∧ (Log.write cfg s c).lineCount_ = 1 := by
  obtain ⟨h1, _, h3, h4, h5, h6, h7⟩ := Log.write_new_day_core cfg s c h
  have hfp := h5.trans (Log.newDayFileName_eq cfg s.path_ s.suffix_ c.t)
  exact ⟨h1, h3, h4, hfp, fun hfit => hfp.trans (Log.take_of_fits hfit), h6, h7⟩

/-- Witness of C3: the logger holds day 15 and 100000 lines, twice the budget
of 50000; a call on day 16 opens "./log/2024_01_16.log" and restarts the
count. -/
theorem Log.write_new_day_witness :
    (Log.sampleState 100000).toDay_ ≠ (Log.info "x" (Log.january 16 0 0 0)).t.tm_mday ∧
      (Log.write Log.sampleCfg (Log.sampleState 100000)
        (Log.info "x" (Log.january 16 0 0 0))).fp_ = "./log/2024_01_16.log".toList ∧
      (Log.write Log.sampleCfg (Log.sampleState 100000)
        (Log.info "x" (Log.january 16 0 0 0))).lineCount_ = 1 :=
  ⟨by decide,
    ((Log.write_new_day Log.sampleCfg (Log.sampleState 100000)
      (Log.info "x" (Log.january 16 0 0 0)) (by decide)).2.2.2.2.1 (by decide)).trans
      (by decide),
    (Log.write_new_day Log.sampleCfg (Log.sampleState 100000)
      (Log.info "x" (Log.january 16 0 0 0)) (by decide)).2.2.2.2.2.2⟩

/-- C4, as stated, fails: whatever the constants (with `LOG_NAME_LEN` above 72
and `MAX_LINES` positive), for a logger whose `path_` has `LOG_NAME_LEN`
characters the overflow rotation opens a file whose name is the beginning of
the path, cut by `snprintf` before the date and the shard index: not a shard
of the date, and the same file for every shard index. -/
theorem Log.write_overflow_counterexample :
    ¬ ∃ cfg : Log.Config, 72 < cfg.LOG_NAME_LEN ∧ 0 < cfg.MAX_LINES ∧
      ∀ (s : Log.State) (c : Log.Call), s.toDay_ = c.t.tm_mday → 0 < s.lineCount_ →
        s.lineCount_ % cfg.MAX_LINES = 0 →
        (Log.write cfg s c).fp_ =
          s.path_ ++ ['/'] ++ Log.fmtD0 4 (c.t.tm_year + 1900) ++ ['_']
            ++ Log.fmtD0 2 (c.t.tm_mon + 1) ++ ['_'] ++ Log.fmtD0 2 c.t.tm_mday ++ ['-']
            ++ Log.fmtD (s.lineCount_ / cfg.MAX_LINES) ++ s.suffix_ := by
  rintro ⟨cfg, _, hL, h⟩
  have hd : (Log.State.mk 1 true false none cfg.MAX_LINES 15
      (List.replicate cfg.LOG_NAME_LEN 'a') ".log".toList "x".toList [] []).toDay_ =
      (Log.info "x" (Log.january 15 0 0 0)).t.tm_mday := rfl
  have h1 := h _ (Log.info "x" (Log.january 15 0 0 0)) hd hL (Nat.mod_self _)
  have h2 := (Log.write_overflow_core cfg _ (Log.info "x" (Log.january 15 0 0 0)) hd hL
    (Nat.mod_self _)).2.2.2.2.2.1
  rw [h2, Log.overflowFileName_eq] at h1
  have h3 := congrArg List.length h1
  simp only [List.length_take, List.length_append, List.length_replicate, List.length_cons,
    List.length_nil] at h3
  omega

/-- C4, amended: a call of `Log::write` on the day that `toDay_` holds, with
`lineCount_` a positive multiple of `MAX_LINES`, rotates to the file whose name
is `path_/YYYY_MM_DD-k suffix_`, built from the date of the call and the shard
index `k = lineCount_ / MAX_LINES` (at least 1) and cut to `LOG_NAME_LEN - 73`
characters, hence exactly that name when the name has fewer than
`LOG_NAME_LEN - 72` characters; it leaves `toDay_` alone and does not reset
`lineCount_`.  The next `MAX_LINES - 1` calls on that day do not rotate, and
the call after them rotates to the name built in the same way with the shard
index `k + 1`. -/
theorem Log.write_overflow (cfg : Log.Config) (s : Log.State) (c : Log.Call)
    (hday : s.toDay_ = c.t.tm_mday) (hpos : 0 < s.lineCount_)
    (hmul : s.lineCount_ % cfg.MAX_LINES = 0) :
    Log.needRotate cfg s c.t = true
      ∧ 1 ≤ s.lineCount_ / cfg.MAX_LINES
      ∧ (Log.rotate cfg s c.t).toDay_ = s.toDay_
      ∧ (Log.rotate cfg s c.t).lineCount_ = s.lineCount_
      ∧ (Log.write cfg s c).fp_ =
          List.take (cfg.LOG_NAME_LEN - 72 - 1)
            (s.path_ ++ ['/'] ++ Log.fmtD0 4 (c.t.tm_year + 1900) ++ ['_']
              ++ Log.fmtD0 2 (c.t.tm_mon + 1) ++ ['_'] ++ Log.fmtD0 2 c.t.tm_mday ++ ['-']
              ++ Log.fmtD (s.lineCount_ / cfg.MAX_LINES) ++ s.suffix_)
      ∧ ((s.path_ ++ ['/'] ++ Log.fmtD0 4 (c.t.tm_year + 1900) ++ ['_']
              ++ Log.fmtD0 2 (c.t.tm_mon + 1) ++ ['_'] ++ Log.fmtD0 2 c.t.tm_mday ++ ['-']
              ++ Log.fmtD (s.lineCount_ / cfg.MAX_LINES) ++ s.suffix_).length + 1
            ≤ cfg.LOG_NAME_LEN - 72 →
          (Log.write cfg s c).fp_ =
            s.path_ ++ ['/'] ++ Log.fmtD0 4 (c.t.tm_year + 1900) ++ ['_']
              ++ Log.fmtD0 2 (c.t.tm_mon + 1) ++ ['_'] ++ Log.fmtD0 2 c.t.tm_mday ++ ['-']
              ++ Log.fmtD (s.lineCount_ / cfg.MAX_LINES) ++ s.suffix_)
      ∧ (Log.write cfg s c).toDay_ = s.toDay_
      ∧ (Log.write cfg s c).lineCount_ = s.lineCount_ + 1
      ∧ ∀ (cs : List Log.Call) (c2 : Log.Call),
          (∀ x ∈ cs, x.t.tm_mday = s.toDay_) → c2.t.tm_mday = s.toDay_ →
          cs.length + 1 = cfg.MAX_LINES →
          (∀ (k : Nat) (hk : k < cs.length),
              Log.needRotate cfg (Log.writes cfg (Log.write cfg s c) (cs.take k))
                (cs.get ⟨k, hk⟩).t = false)
            ∧ Log.needRotate cfg (Log.writes cfg (Log.write cfg s c) cs) c2.t = true
            ∧ (Log.write cfg (Log.writes cfg (Log.write cfg s c) cs) c2).fp_ =
                List.take (cfg.LOG_NAME_LEN - 72 - 1)
                  (s.path_ ++ ['/'] ++ Log.fmtD0 4 (c2.t.tm_year + 1900) ++ ['_']
                    ++ Log.fmtD0 2 (c2.t.tm_mon + 1) ++ ['_'] ++ Log.fmtD0 2 c2.t.tm_mday
                    ++ ['-'] ++ Log.fmtD (s.lineCount_ / cfg.MAX_LINES + 1) ++ s.suffix_)
            ∧ ((s.path_ ++ ['/'] ++ Log.fmtD0 4 (c2.t.tm_year + 1900) ++ ['_']
                    ++ Log.fmtD0 2 (c2.t.tm_mon + 1) ++ ['_'] ++ Log.fmtD0 2 c2.t.tm_mday
                    ++ ['-'] ++ Log.fmtD (s.lineCount_ / cfg.MAX_LINES + 1)
                    ++ s.suffix_).length + 1 ≤ cfg.LOG_NAME_LEN - 72 →
                (Log.write cfg (Log.writes cfg (Log.write cfg s c) cs) c2).fp_ =
                  s.path_ ++ ['/'] ++ Log.fmtD0 4 (c2.t.tm_year + 1900) ++ ['_']
                    ++ Log.fmtD0 2 (c2.t.tm_mon + 1) ++ ['_'] ++ Log.fmtD0 2 c2.t.tm_mday
                    ++ ['-'] ++ Log.fmtD (s.lineCount_ / cfg.MAX_LINES + 1) ++ s.suffix_) := by
  obtain ⟨h1, _, h3, h4, h5, h6, h7, h8, h9⟩ := Log.write_overflow_core cfg s c hday hpos hmul
  have hfp := h6.trans (Log.overflowFileName_eq cfg s.path_ s.suffix_ c.t _)
  refine ⟨h1, h3, h4, h5, hfp, fun hfit => hfp.trans (Log.take_of_fits hfit), h7, h8, ?_⟩
  intro cs c2 hcs hc2 hlen
  obtain ⟨g1, g2, g3⟩ := h9 cs c2 hcs hc2 hlen
  have hfp2 : (Log.write cfg (Log.writes cfg (Log.write cfg s c) cs) c2).fp_ =
      List.take (cfg.LOG_NAME_LEN - 72 - 1)
        (s.path_ ++ ['/'] ++ Log.fmtD0 4 (c2.t.tm_year + 1900) ++ ['_']
          ++ Log.fmtD0 2 (c2.t.tm_mon + 1) ++ ['_'] ++ Log.fmtD0 2 c2.t.tm_mday
          ++ ['-'] ++ Log.fmtD (s.lineCount_ / cfg.MAX_LINES + 1) ++ s.suffix_) := by
    rw [Log.write, (Log.emit_fields _ c2).2.2.1, g3, Log.overflowFileName_eq]
  exact ⟨g1, g2, hfp2, fun hfit => hfp2.trans (Log.take_of_fits hfit)⟩

/-- Witness of C4: with a budget of two lines, a logger that has counted two
lines on day 15 opens "./log/2024_01_15-1.log" at the next call of that day,
and two calls later "./log/2024_01_15-2.log". -/
theorem Log.write_overflow_witness :
    ((Log.sampleState 2).toDay_ = (Log.info "a" (Log.january 15 8 0 0)).t.tm_mday ∧
        0 < (Log.sampleState 2).lineCount_ ∧
        (Log.sampleState 2).lineCount_ % Log.tinyCfg.MAX_LINES = 0) ∧
      (Log.write Log.tinyCfg (Log.sampleState 2) (Log.info "a" (Log.january 15 8 0 0))).fp_ =
        "./log/2024_01_15-1.log".toList ∧
      (Log.write Log.tinyCfg
        (Log.writes Log.tinyCfg
          (Log.write Log.tinyCfg (Log.sampleState 2) (Log.info "a" (Log.january 15 8 0 0)))
          [Log.info "b" (Log.january 15 8 0 1)]) (Log.info "c" (Log.january 15 8 0 2))).fp_ =
        "./log/2024_01_15-2.log".toList :=
  ⟨⟨by decide, by decide, by decide⟩,
    ((Log.write_overflow Log.tinyCfg (Log.sampleState 2) (Log.info "a" (Log.january 15 8 0 0))
      (by decide) (by decide) (by decide)).2.2.2.2.2.1 (by decide)).trans (by decide),
    (((Log.write_overflow Log.tinyCfg (Log.sampleState 2) (Log.info "a" (Log.january 15 8 0 0))
      (by decide) (by decide) (by decide)).2.2.2.2.2.2.2.2
        [Log.info "b" (Log.january 15 8 0 1)] (Log.info "c" (Log.january 15 8 0 2))
        (by decide) (by decide) (by decide)).2.2.2 (by decide)).trans (by decide)⟩

/-- C7, as stated, fails: whatever the value of `LOG_NAME_LEN`, the names that
`init` and the rotations open are not always the full text
`path/YYYY_MM_DD[-shard]suffix`; a path of `LOG_NAME_LEN` characters is cut. -/
theorem Log.fileName_exact_counterexample :
    ¬ ∃ cfg : Log.Config, ∀ (path suffix : Log.Str) (t : Log.Tm) (shard : Nat),
      Log.initFileName cfg path suffix t =
          path ++ ['/'] ++ Log.fmtD0 4 (t.tm_year + 1900) ++ ['_'] ++ Log.fmtD0 2 (t.tm_mon + 1)
            ++ ['_'] ++ Log.fmtD0 2 t.tm_mday ++ suffix
        ∧ Log.newDayFileName cfg path suffix t =
          path ++ ['/'] ++ Log.fmtD0 4 (t.tm_year + 1900) ++ ['_'] ++ Log.fmtD0 2 (t.tm_mon + 1)
            ++ ['_'] ++ Log.fmtD0 2 t.tm_mday ++ suffix
        ∧ Log.overflowFileName cfg path suffix t shard =
          path ++ ['/'] ++ Log.fmtD0 4 (t.tm_year + 1900) ++ ['_'] ++ Log.fmtD0 2 (t.tm_mon + 1)
            ++ ['_'] ++ Log.fmtD0 2 t.tm_mday ++ ['-'] ++ Log.fmtD shard ++ suffix := by
  rintro ⟨cfg, h⟩
  have h1 := (h (List.replicate cfg.LOG_NAME_LEN 'a') [] (Log.january 15 0 0 0) 0).1
  have h2 := congrArg List.length h1
  have h3 := Log.snprintf_length_le (cfg.LOG_NAME_LEN - 1)
    (List.replicate cfg.LOG_NAME_LEN 'a' ++ ['/'] ++ Log.dateTail (Log.january 15 0 0 0) ++ [])
  unfold Log.initFileName at h2
  rw [h2] at h3
  simp only [List.length_append, List.length_replicate, List.length_cons, List.length_nil] at h3
  omega

/-- C7, amended: a name that fits its buffer is exact.  When the full text
`path/YYYY_MM_DD suffix` has fewer than `LOG_NAME_LEN - 1` characters `init`
opens exactly that name; when it has fewer than `LOG_NAME_LEN - 72` characters
a new-day rotation opens exactly that name; and when
`path/YYYY_MM_DD-shard suffix` has fewer than `LOG_NAME_LEN - 72` characters an
overflow rotation opens exactly that name.  The year is padded with zeros to 4
digits, month and day to 2, and the shard index is in decimal. -/
theorem Log.fileName_exact (cfg : Log.Config) (path suffix : Log.Str) (t : Log.Tm)
    (shard : Nat) :
    ((path ++ ['/'] ++ Log.fmtD0 4 (t.tm_year + 1900) ++ ['_'] ++ Log.fmtD0 2 (t.tm_mon + 1)
          ++ ['_'] ++ Log.fmtD0 2 t.tm_mday ++ suffix).length + 1 ≤ cfg.LOG_NAME_LEN - 1 →
        Log.initFileName cfg path suffix t =
          path ++ ['/'] ++ Log.fmtD0 4 (t.tm_year + 1900) ++ ['_'] ++ Log.fmtD0 2 (t.tm_mon + 1)
            ++ ['_'] ++ Log.fmtD0 2 t.tm_mday ++ suffix)
      ∧ ((path ++ ['/'] ++ Log.fmtD0 4 (t.tm_year + 1900) ++ ['_'] ++ Log.fmtD0 2 (t.tm_mon + 1)
          ++ ['_'] ++ Log.fmtD0 2 t.tm_mday ++ suffix).length + 1 ≤ cfg.LOG_NAME_LEN - 72 →
        Log.newDayFileName cfg path suffix t =
          path ++ ['/'] ++ Log.fmtD0 4 (t.tm_year + 1900) ++ ['_'] ++ Log.fmtD0 2 (t.tm_mon + 1)
            ++ ['_'] ++ Log.fmtD0 2 t.tm_mday ++ suffix)
      ∧ ((path ++ ['/'] ++ Log.fmtD0 4 (t.tm_year + 1900) ++ ['_'] ++ Log.fmtD0 2 (t.tm_mon + 1)
          ++ ['_'] ++ Log.fmtD0 2 t.tm_mday ++ ['-'] ++ Log.fmtD shard ++ suffix).length + 1
            ≤ cfg.LOG_NAME_LEN - 72 →
        Log.overflowFileName cfg path suffix t shard =
          path ++ ['/'] ++ Log.fmtD0 4 (t.tm_year + 1900) ++ ['_'] ++ Log.fmtD0 2 (t.tm_mon + 1)
            ++ ['_'] ++ Log.fmtD0 2 t.tm_mday ++ ['-'] ++ Log.fmtD shard ++ suffix)
      ∧ Log.fmtD0 4 2024 = "2024".toList ∧ Log.fmtD0 4 987 = "0987".toList
      ∧ Log.fmtD0 2 3 = "03".toList ∧ Log.fmtD0 2 12 = "12".toList
      ∧ Log.fmtD 0 = "0".toList ∧ Log.fmtD 17 = "17".toList := by
  refine ⟨fun h => ?_, fun h => ?_, fun h => ?_, by decide, by decide, by decide, by decide,
    by decide, by decide⟩
  · unfold Log.initFileName Log.dateTail
    simp only [← List.append_assoc] at h ⊢
    exact Log.snprintf_of_fits h
  · unfold Log.newDayFileName Log.dateTail
    simp only [← List.append_assoc] at h ⊢
    exact Log.snprintf_of_fits h
  · unfold Log.overflowFileName Log.dateTail
    simp only [← List.append_assoc] at h ⊢
    exact Log.snprintf_of_fits h

/-- Witness of C7: under "./log" with suffix ".log" and names of 256 bytes the
three names of 2024-01-15 are exact. -/
theorem Log.fileName_exact_witness :
    Log.initFileName Log.sampleCfg "./log".toList ".log".toList (Log.january 15 0 0 0) =
        "./log/2024_01_15.log".toList
      ∧ Log.newDayFileName Log.sampleCfg "./log".toList ".log".toList (Log.january 15 0 0 0) =
        "./log/2024_01_15.log".toList
      ∧ Log.overflowFileName Log.sampleCfg "./log".toList ".log".toList (Log.january 15 0 0 0) 3 =
        "./log/2024_01_15-3.log".toList :=
  ⟨((Log.fileName_exact Log.sampleCfg "./log".toList ".log".toList (Log.january 15 0 0 0) 3).1
      (by decide)).trans (by decide),
    ((Log.fileName_exact Log.sampleCfg "./log".toList ".log".toList (Log.january 15 0 0 0) 3).2.1
      (by decide)).trans (by decide),
    ((Log.fileName_exact Log.sampleCfg "./log".toList ".log".toList (Log.january 15 0 0 0) 3).2.2.1
      (by decide)).trans (by decide)⟩

namespace Log

/-! ### Decimal numbers are told apart by their digits -/

theorem digitChar_toNat {d : Nat} (h : d < 10) : (Nat.digitChar d).toNat - 48 = d := by
  interval_cases d <;> rfl

theorem toDigitsCore_foldl :
    ∀ (fuel n : Nat) (ds : List Char), n < fuel →
      (Nat.toDigitsCore 10 fuel n ds).foldl (fun a c => 10 * a + (c.toNat - 48)) 0 =
        ds.foldl (fun a c => 10 * a + (c.toNat - 48)) n := by
  intro fuel
  induction fuel with
  | zero => intro n ds h; omega
  | succ fuel ih =>
    intro n ds h
    have hd := digitChar_toNat (Nat.mod_lt n (by decide : 10 > 0))
    unfold Nat.toDigitsCore
    simp only
    split_ifs with h0
    · simp only [List.foldl_cons, hd]
      congr 1
      omega
    · rw [ih (n / 10) _ (by omega)]
      simp only [List.foldl_cons, hd]
      congr 1
      omega

theorem decVal_fmtD (n : Nat) : decVal (fmtD n) = n := by
  unfold decVal fmtD Nat.toDigits
  rw [toDigitsCore_foldl (n + 1) n [] (by omega)]
  rfl

theorem fmtD_injective {a b : Nat} (h : fmtD a = fmtD b) : a = b := by
  have := congrArg decVal h
  rwa [decVal_fmtD, decVal_fmtD] at this

end Log

namespace Log

/-! ### Files of one day: distinct shards have distinct names when the names fit -/

theorem fileAt_block {cfg : Config} {path suffix : Str} {t0 : Tm} {K : Nat}
    (hL : 0 < cfg.MAX_LINES)
    (hfit : ∀ k, 1 ≤ k → k ≤ K →
      (path ++ ['/'] ++ dateTail t0 ++ ['-'] ++ fmtD k ++ suffix).length + 1
        ≤ cfg.LOG_NAME_LEN - 72)
    {i j : Nat} (hi : i / cfg.MAX_LINES ≤ K) (hj : j / cfg.MAX_LINES ≤ K)
    (h : fileAt cfg path suffix t0 i = fileAt cfg path suffix t0 j) :
    i / cfg.MAX_LINES = j / cfg.MAX_LINES := by
  have shard : ∀ x, ¬ (x < cfg.MAX_LINES) → x / cfg.MAX_LINES ≤ K →
      1 ≤ x / cfg.MAX_LINES ∧
      fileAt cfg path suffix t0 x =
        path ++ ['/'] ++ dateTail t0 ++ ['-'] ++ fmtD (x / cfg.MAX_LINES) ++ suffix := by
    intro x hx hxK
    have h1 : 1 ≤ x / cfg.MAX_LINES := (Nat.le_div_iff_mul_le hL).2 (by omega)
    refine ⟨h1, ?_⟩
    simp only [fileAt, if_neg hx, overflowFileName]
    exact snprintf_of_fits (hfit _ h1 hxK)
  have base : ∀ x y, x < cfg.MAX_LINES → ¬ (y < cfg.MAX_LINES) → y / cfg.MAX_LINES ≤ K →
      fileAt cfg path suffix t0 x ≠ fileAt cfg path suffix t0 y := by
    intro x y hx hy hyK e
    obtain ⟨h1, hs⟩ := shard y hy hyK
    have hf := hfit _ h1 hyK
    have hb : fileAt cfg path suffix t0 x = path ++ ['/'] ++ dateTail t0 ++ suffix := by
      simp only [fileAt, if_pos hx, initFileName]
      apply snprintf_of_fits
      simp only [List.length_append, List.length_cons, List.length_nil] at hf ⊢
      omega
    rw [hb, hs] at e
    have := congrArg List.length e
    simp only [List.length_append, List.length_cons, List.length_nil] at this
    omega
  by_cases hi' : i < cfg.MAX_LINES
  · by_cases hj' : j < cfg.MAX_LINES
    · rw [Nat.div_eq_of_lt hi', Nat.div_eq_of_lt hj']
    · exact absurd h (base i j hi' hj' hj)
  · by_cases hj' : j < cfg.MAX_LINES
    · exact absurd h.symm (base j i hj' hi' hi)
    · rw [(shard i hi' hi).2, (shard j hj' hj).2] at h
      have h2 := List.append_cancel_right h
      have h3 := List.append_cancel_left h2
      exact fmtD_injective h3

/-- At most `L` indices of a list share a quotient by `L`. -/
theorem length_le_of_same_block {L q : Nat} (hL : 0 < L) (idx : List Nat) (hnd : idx.Nodup)
    (h : ∀ j ∈ idx, j / L = q) : idx.length ≤ L := by
  have hsub : idx ⊆ List.range' (q * L) L := by
    intro j hj
    have hq := h j hj
    rw [List.mem_range'_1]
    have h1 := Nat.div_add_mod j L
    have h2 := Nat.mod_lt j hL
    rw [hq, Nat.mul_comm L q] at h1
    constructor <;> omega
  have := (List.subperm_of_subset hnd hsub).length_le
  simpa using this

/-- No file takes more than `MAX_LINES` of the lines of a run within one day,
as long as the names of the shards in use fit their buffer. -/
theorem count_fileAt_le {cfg : Config} {path suffix : Str} {t0 : Tm} (hL : 0 < cfg.MAX_LINES)
    (cs : List Call)
    (hfit : ∀ k, 1 ≤ k → k ≤ (cs.length - 1) / cfg.MAX_LINES →
      (path ++ ['/'] ++ dateTail t0 ++ ['-'] ++ fmtD k ++ suffix).length + 1
        ≤ cfg.LOG_NAME_LEN - 72)
    (f : Str) :
    ((cs.enum.map (fun p => (fileAt cfg path suffix t0 p.1, lineOf p.2))).filter
      (fun e => decide (e.1 = f))).length ≤ cfg.MAX_LINES := by
  rw [List.filter_map, List.length_map]
  set l := cs.enum.filter ((fun e : Str × Str => decide (e.1 = f)) ∘
    (fun p : Nat × Call => (fileAt cfg path suffix t0 p.1, lineOf p.2))) with hl
  have hlen : l.length = (l.map Prod.fst).length := by simp
  have hsubl : (l.map Prod.fst).Sublist (List.range cs.length) := by
    have := (List.filter_sublist (l := cs.enum) (p := ((fun e : Str × Str => decide (e.1 = f)) ∘
      (fun p : Nat × Call => (fileAt cfg path suffix t0 p.1, lineOf p.2))))).map Prod.fst
    rwa [List.enum_map_fst] at this
  have hnd : (l.map Prod.fst).Nodup := (List.nodup_range _).sublist hsubl
  have hmem : ∀ j ∈ l.map Prod.fst, j < cs.length ∧ fileAt cfg path suffix t0 j = f := by
    intro j hj
    refine ⟨List.mem_range.1 (hsubl.subset hj), ?_⟩
    obtain ⟨p, hp, rfl⟩ := List.mem_map.1 hj
    have := (List.mem_filter.1 hp).2
    simpa using this
  rw [hlen]
  rcases List.eq_nil_or_concat (l.map Prod.fst) with h0 | ⟨_, j0, h0⟩
  · rw [h0]; exact Nat.zero_le _
  · have hj0 : j0 ∈ l.map Prod.fst := by rw [h0]; simp
    have hK : ∀ j, j < cs.length → j / cfg.MAX_LINES ≤ (cs.length - 1) / cfg.MAX_LINES :=
      fun j hj => Nat.div_le_div_right (by omega)
    apply length_le_of_same_block hL _ hnd (q := j0 / cfg.MAX_LINES)
    intro j hj
    exact fileAt_block hL hfit (hK j (hmem j hj).1) (hK j0 (hmem j0 hj0).1)
      ((hmem j hj).2.trans (hmem j0 hj0).2.symm)

end Log

namespace Log

theorem fileAt_eq_ite (cfg : Config) (path suffix : Str) (t0 : Tm) (j : Nat) :
    fileAt cfg path suffix t0 j =
      if j + 1 ≤ cfg.MAX_LINES then initFileName cfg path suffix t0
      else overflowFileName cfg path suffix t0 (j / cfg.MAX_LINES) := by
  unfold fileAt
  by_cases h : j < cfg.MAX_LINES
  · rw [if_pos h, if_pos (by omega)]
  · rw [if_neg h, if_neg (by omega)]

/-- A path that fills the name buffer of a rotation hides the shard index. -/
theorem overflowFileName_cut (cfg : Config) (path suffix : Str) (t : Tm) (shard : Nat)
    (h : cfg.LOG_NAME_LEN - 72 - 1 ≤ path.length) :
    overflowFileName cfg path suffix t shard = path.take (cfg.LOG_NAME_LEN - 72 - 1) := by
  unfold overflowFileName snprintf
  simp only [List.append_assoc]
  exact List.take_append_of_le_length h

end Log

/-- C10, as stated, fails: whatever the value of `LOG_NAME_LEN` (above the 72
that line 120 subtracts from it), there are a line budget, a path and a run of
calls within the day of `init` after which one file holds more lines of the
run than the budget.  (With a budget of one line and a path of `LOG_NAME_LEN`
characters the shards 1 and 2 get the same name, cut before the shard
index.) -/
theorem Log.write_placement_counterexample :
    ¬ ∃ nameLen : Nat, 72 < nameLen ∧
      ∀ (L D : Nat) (path suffix : Log.Str) (t0 : Log.Tm) (cs : List Log.Call),
      0 < L → (∀ c ∈ cs, Log.SameDay c.t t0) →
      ∀ f : Log.Str,
        ((Log.writes ⟨nameLen, L, D⟩ (Log.initFirst ⟨nameLen, L, D⟩ 1 path suffix 0 t0)
          cs).written.filter (fun e => decide (e.1 = f))).length ≤ L := by
  rintro ⟨N, _, h⟩
  have hday : ∀ c ∈ [Log.info "a" (Log.january 15 0 0 0), Log.info "b" (Log.january 15 0 0 0),
      Log.info "c" (Log.january 15 0 0 0)], Log.SameDay c.t (Log.january 15 0 0 0) := by
    decide
  have h0 := Log.initCore_syncAt ⟨N, 1, 0⟩ none [] 1 (List.replicate N 'a') [] 0
    (Log.january 15 0 0 0) (le_refl _) Nat.one_pos
  have hw := (Log.writes_syncAt ⟨N, 1, 0⟩ Nat.one_pos _ _ 0 h0 hday).2
  have hcut : ∀ k, Log.overflowFileName ⟨N, 1, 0⟩ (List.replicate N 'a') []
      (Log.january 15 0 0 0) k = (List.replicate N 'a').take (N - 72 - 1) :=
    fun k => Log.overflowFileName_cut _ _ _ _ _ (by simp; omega)
  have h1 := h 1 0 (List.replicate N 'a') [] (Log.january 15 0 0 0) _ (by decide) hday
    ((List.replicate N 'a').take (N - 72 - 1))
  unfold Log.initFirst at h1
  rw [hw] at h1
  simp only [Log.initCore, List.nil_append, List.enumFrom, List.map_cons, List.map_nil,
    Log.fileAt, Nat.lt_irrefl, if_false, Nat.div_one, hcut, List.filter_cons,
    decide_True, if_true, List.length_cons, show ¬ (1 + 1 < 1) by decide,
    show ¬ (0 + 1 < 1) by decide, show ¬ (0 + 1 + 1 < 1) by decide] at h1
  split_ifs at h1 <;> simp at h1

/-- C10, amended: after `Log::init` in synchronous mode, with
`MAX_LINES > 0`, call number `i` of a run that stays within the day of `init`
writes its line to the file of `init` when `i <= MAX_LINES` and to the shard
with index `(i - 1) / MAX_LINES` otherwise (below, `p.1 = i - 1`); and when the
names of all shards in use fit the name buffer of a rotation, no file receives
more than `MAX_LINES` of these lines. -/
theorem Log.write_placement (cfg : Log.Config) (dq : Option Log.BlockDeque)
    (wr : List (Log.Str × Log.Str)) (level : Int) (path suffix : Log.Str)
    (maxQueueSize : Int) (t0 : Log.Tm) (cs : List Log.Call)
    (hL : 0 < cfg.MAX_LINES) (hsync : maxQueueSize ≤ 0)
    (hday : ∀ c ∈ cs, Log.SameDay c.t t0) :
    (Log.writes cfg (Log.initCore cfg dq wr level path suffix maxQueueSize t0) cs).written =
        wr ++ cs.enum.map (fun p =>
          (if p.1 + 1 ≤ cfg.MAX_LINES then Log.initFileName cfg path suffix t0
            else Log.overflowFileName cfg path suffix t0 (p.1 / cfg.MAX_LINES),
           Log.lineOf p.2))
      ∧ ((∀ k, 1 ≤ k → k ≤ (cs.length - 1) / cfg.MAX_LINES →
            (path ++ ['/'] ++ Log.dateTail t0 ++ ['-'] ++ Log.fmtD k ++ suffix).length + 1
              ≤ cfg.LOG_NAME_LEN - 72) →
          ∀ f : Log.Str,
            ((cs.enum.map (fun p =>
              (if p.1 + 1 ≤ cfg.MAX_LINES then Log.initFileName cfg path suffix t0
                else Log.overflowFileName cfg path suffix t0 (p.1 / cfg.MAX_LINES),
               Log.lineOf p.2))).filter (fun e => decide (e.1 = f))).length
              ≤ cfg.MAX_LINES) := by
  have h0 := Log.initCore_syncAt cfg dq wr level path suffix maxQueueSize t0 hsync hL
  have hw := (Log.writes_syncAt cfg hL cs _ 0 h0 hday).2
  have hfun : (fun p : Nat × Log.Call =>
      (if p.1 + 1 ≤ cfg.MAX_LINES then Log.initFileName cfg path suffix t0
        else Log.overflowFileName cfg path suffix t0 (p.1 / cfg.MAX_LINES), Log.lineOf p.2)) =
      (fun p => (Log.fileAt cfg path suffix t0 p.1, Log.lineOf p.2)) := by
    funext p
    rw [Log.fileAt_eq_ite]
  rw [hfun]
  refine ⟨?_, fun hfit f => Log.count_fileAt_le hL cs hfit f⟩
  rw [hw]
  rfl

/-- Witness of C10: with a budget of two lines, five calls on the day of `init`
put two lines in the file of `init`, two in shard 1 and one in shard 2; the
names fit, and shard 1 holds no more than two of the lines. -/
theorem Log.write_placement_witness :
    (0 < Log.tinyCfg.MAX_LINES ∧ (0 : Int) ≤ 0) ∧
      ((Log.writes Log.tinyCfg
        (Log.initCore Log.tinyCfg none [] 1 "./log".toList ".log".toList 0 (Log.january 15 7 0 0))
        [Log.info "a" (Log.january 15 8 0 0), Log.info "b" (Log.january 15 8 0 1),
          Log.info "c" (Log.january 15 8 0 2), Log.info "d" (Log.january 15 8 0 3),
          Log.info "e" (Log.january 15 8 0 4)]).written.map Prod.fst =
        ["./log/2024_01_15.log".toList, "./log/2024_01_15.log".toList,
          "./log/2024_01_15-1.log".toList, "./log/2024_01_15-1.log".toList,
          "./log/2024_01_15-2.log".toList]) ∧
      (([Log.info "a" (Log.january 15 8 0 0), Log.info "b" (Log.january 15 8 0 1),
          Log.info "c" (Log.january 15 8 0 2), Log.info "d" (Log.january 15 8 0 3),
          Log.info "e" (Log.january 15 8 0 4)].enum.map (fun p =>
            (if p.1 + 1 ≤ Log.tinyCfg.MAX_LINES
              then Log.initFileName Log.tinyCfg "./log".toList ".log".toList (Log.january 15 7 0 0)
              else Log.overflowFileName Log.tinyCfg "./log".toList ".log".toList
                (Log.january 15 7 0 0) (p.1 / Log.tinyCfg.MAX_LINES),
             Log.lineOf p.2))).filter
          (fun e => decide (e.1 = "./log/2024_01_15-1.log".toList))).length
        ≤ Log.tinyCfg.MAX_LINES :=
  ⟨⟨by decide, by decide⟩,
    (congrArg (List.map Prod.fst)
      (Log.write_placement Log.tinyCfg none [] 1 "./log".toList ".log".toList 0
        (Log.january 15 7 0 0)
        [Log.info "a" (Log.january 15 8 0 0), Log.info "b" (Log.january 15 8 0 1),
          Log.info "c" (Log.january 15 8 0 2), Log.info "d" (Log.january 15 8 0 3),
          Log.info "e" (Log.january 15 8 0 4)]
        (by decide) (by decide) (by decide)).1).trans (by decide),
    (Log.write_placement Log.tinyCfg none [] 1 "./log".toList ".log".toList 0
      (Log.january 15 7 0 0)
      [Log.info "a" (Log.january 15 8 0 0), Log.info "b" (Log.january 15 8 0 1),
        Log.info "c" (Log.january 15 8 0 2), Log.info "d" (Log.january 15 8 0 3),
        Log.info "e" (Log.january 15 8 0 4)]
      (by decide) (by decide) (by decide)).2
      (by
        intro k h1 h2
        have h3 : k ≤ 2 := h2
        interval_cases k <;> decide)
      "./log/2024_01_15-1.log".toList⟩

namespace Log

theorem encodesDate_sameDay {path suffix : Str} {a b : Tm} {name : Str} (h : SameDay a b)
    (he : EncodesDate path suffix b name) : EncodesDate path suffix a name := by
  unfold EncodesDate dayName shardName at he ⊢
  rw [dateTail_sameDay h]
  exact he

theorem init_dateInv (cfg : Config) (s : State) (level : Int) (path suffix : Str)
    (maxQueueSize : Int) (t : Tm)
    (hsync : (Op.init level path suffix maxQueueSize t).isSync = true)
    (hfit : opFits cfg s (Op.init level path suffix maxQueueSize t) = true) :
    DateInv (init cfg s level path suffix maxQueueSize t) t := by
  have hq : ¬ (maxQueueSize > 0) := by
    have : maxQueueSize ≤ 0 := by simpa [Op.isSync] using hsync
    omega
  have hf : (dayName path suffix t).length + 1 ≤ cfg.LOG_NAME_LEN - 1 := by
    simpa [opFits] using hfit
  refine ⟨by simp [init, initCore, hq], rfl, Or.inl ?_, rfl⟩
  exact snprintf_of_fits hf

/-- One call on a synchronous logger whose names are not cut, stamped with the
date of the operation before it or with another day of the month: the line
goes to a file whose name encodes the date of the line. -/
theorem write_dateInv (cfg : Config) {s : State} {d : Tm} (c : Call) (hs : DateInv s d)
    (hd : SameDay c.t d ∨ c.t.tm_mday ≠ d.tm_mday)
    (hfit : opFits cfg s (Op.write c) = true) :
    DateInv (write cfg s c) c.t ∧
      ∃ f, (write cfg s c).written = s.written ++ [(f, lineOf c)] ∧
        EncodesDate s.path_ s.suffix_ c.t f := by
  obtain ⟨hasync, hbuf, henc, hday⟩ := hs
  obtain ⟨r1, r2, r3, r4, _, _, r7⟩ := rotate_fields cfg s c.t
  obtain ⟨_, e2, e3, e4, e5, e6, e7⟩ := emit_fields (rotate cfg s c.t) c
  have hname : EncodesDate s.path_ s.suffix_ c.t (rotate cfg s c.t).fp_ := by
    by_cases hm : s.toDay_ = c.t.tm_mday
    · have hsame : SameDay c.t d := by
        rcases hd with h | h
        · exact h
        · exact absurd (hday.trans hm).symm h
      by_cases hn : needRotate cfg s c.t = true
      · have hne : ¬ (s.toDay_ != c.t.tm_mday) = true := by simp [hm]
        have hf : (shardName s.path_ s.suffix_ c.t (s.lineCount_ / cfg.MAX_LINES)).length + 1
            ≤ cfg.LOG_NAME_LEN - 72 := by
          simpa [opFits, hm, hn] using hfit
        refine Or.inr ⟨s.lineCount_ / cfg.MAX_LINES, ?_⟩
        unfold rotate
        rw [if_pos hn, if_neg hne]
        exact snprintf_of_fits hf
      · have hn2 : needRotate cfg s c.t = false := by simpa using hn
        rw [rotate_of_not_need hn2]
        exact encodesDate_sameDay hsame henc
    · have hf : (dayName s.path_ s.suffix_ c.t).length + 1 ≤ cfg.LOG_NAME_LEN - 72 := by
        simpa [opFits, hm] using hfit
      rw [rotate_new_day cfg hm]
      exact Or.inl (snprintf_of_fits hf)
  refine ⟨⟨?_, ?_, ?_, ?_⟩, (rotate cfg s c.t).fp_, ?_, hname⟩
  · rw [write, e6, r3]; exact hasync
  · rw [write, e7]
  · rw [write, e3, e4, e5, r1, r2]; exact hname
  · rw [write, e2, r7]
  · rw [write_written_sync cfg c hasync, hbuf, List.nil_append]

theorem run_dateInv (cfg : Config) (c : Call) :
    ∀ (ops : List Op) (s : State) (d : Tm), DateInv s d → (∀ op ∈ ops, op.isSync = true) →
      namesFit cfg s (ops ++ [Op.write c]) = true → wellDated d (ops ++ [Op.write c]) = true →
      ∃ f, (write cfg (run cfg s ops) c).written = (run cfg s ops).written ++ [(f, lineOf c)] ∧
        EncodesDate (run cfg s ops).path_ (run cfg s ops).suffix_ c.t f := by
  intro ops
  induction ops with
  | nil =>
    intro s d hs _ hfit hdat
    have hf : opFits cfg s (Op.write c) = true := by
      simpa [namesFit] using hfit
    have hd : SameDay c.t d ∨ c.t.tm_mday ≠ d.tm_mday := by
      simpa [wellDated] using hdat
    exact (write_dateInv cfg c hs hd hf).2
  | cons op ops ih =>
    intro s d hs hsync hfit hdat
    have hfit2 : opFits cfg s op = true ∧
        namesFit cfg (step cfg s op) (ops ++ [Op.write c]) = true := by
      simpa [namesFit] using hfit
    have hsync2 := fun o ho => hsync o (List.mem_cons_of_mem _ ho)
    cases op with
    | init level path suffix maxQueueSize t =>
      have hdat2 : wellDated t (ops ++ [Op.write c]) = true := by
        simpa [wellDated] using hdat
      exact ih _ t (init_dateInv cfg s level path suffix maxQueueSize t
        (hsync _ (List.mem_cons_self _ _)) hfit2.1) hsync2 hfit2.2 hdat2
    | write c1 =>
      have hdat2 : (SameDay c1.t d ∨ c1.t.tm_mday ≠ d.tm_mday) ∧
          wellDated c1.t (ops ++ [Op.write c]) = true := by
        simpa [wellDated] using hdat
      exact ih _ c1.t (write_dateInv cfg c1 hs hdat2.1 hfit2.1).1 hsync2 hfit2.2 hdat2.2

end Log

/-- C8, as stated, fails, whatever the constants, in two ways.  A path as long
as the name buffer: the name of the file that `init` opens is cut and encodes
no date, although the line bears the date of `init`.  And a logger opened on
2024-01-15 that next writes a line stamped 2024-02-15: line 104 compares days
of the month only, so the line goes to the file that `init` opened, whose name
is not a name of 2024-02-15. -/
theorem Log.line_file_date_counterexample :
    (¬ ∃ cfg : Log.Config, ∀ (path suffix : Log.Str) (t0 : Log.Tm) (c : Log.Call),
        Log.SameDay c.t t0 →
        ∀ e ∈ (Log.write cfg (Log.initFirst cfg 1 path suffix 0 t0) c).written,
          Log.EncodesDate path suffix c.t e.1)
      ∧ ¬ ∃ cfg : Log.Config, ∀ (t0 : Log.Tm) (c : Log.Call),
        ∀ e ∈ (Log.write cfg (Log.initFirst cfg 1 [] [] 0 t0) c).written,
          Log.EncodesDate [] [] c.t e.1 := by
  constructor
  · rintro ⟨cfg, h⟩
    have hn : Log.needRotate cfg
        (Log.initFirst cfg 1 (List.replicate cfg.LOG_NAME_LEN 'a') [] 0 (Log.january 15 0 0 0))
        (Log.january 15 0 0 0) = false := by
      rw [Log.needRotate_false_iff]
      exact ⟨rfl, Or.inl rfl⟩
    have hw := Log.write_written_sync cfg
      (s := Log.initFirst cfg 1 (List.replicate cfg.LOG_NAME_LEN 'a') [] 0 (Log.january 15 0 0 0))
      (Log.info "x" (Log.january 15 0 0 0)) (by simp [Log.initFirst, Log.initCore])
    have he := h (List.replicate cfg.LOG_NAME_LEN 'a') [] (Log.january 15 0 0 0)
      (Log.info "x" (Log.january 15 0 0 0)) ⟨rfl, rfl, rfl⟩ _
      (by rw [hw]; exact List.mem_append_right _ (List.mem_singleton_self _))
    have hfp : (Log.rotate cfg
        (Log.initFirst cfg 1 (List.replicate cfg.LOG_NAME_LEN 'a') [] 0 (Log.january 15 0 0 0))
        (Log.info "x" (Log.january 15 0 0 0)).t).fp_ =
        Log.snprintf (cfg.LOG_NAME_LEN - 1)
          (Log.dayName (List.replicate cfg.LOG_NAME_LEN 'a') [] (Log.january 15 0 0 0)) := by
      have : (Log.info "x" (Log.january 15 0 0 0)).t = Log.january 15 0 0 0 := rfl
      rw [this, Log.rotate_of_not_need hn]
      rfl
    simp only [hfp] at he
    have hlen := Log.snprintf_length_le (cfg.LOG_NAME_LEN - 1)
      (Log.dayName (List.replicate cfg.LOG_NAME_LEN 'a') [] (Log.january 15 0 0 0))
    rcases he with he | ⟨k, he⟩
    · rw [he] at hlen
      simp only [Log.dayName, List.length_append, List.length_replicate, List.length_cons,
        List.length_nil] at hlen
      omega
    · rw [he] at hlen
      simp only [Log.shardName, List.length_append, List.length_replicate, List.length_cons,
        List.length_nil] at hlen
      omega
  · rintro ⟨cfg, h⟩
    have hn : Log.needRotate cfg (Log.initFirst cfg 1 [] [] 0 (Log.january 15 0 0 0))
        (Log.february 15 0 0 0) = false := by
      rw [Log.needRotate_false_iff]
      exact ⟨rfl, Or.inl rfl⟩
    have hw := Log.write_written_sync cfg
      (s := Log.initFirst cfg 1 [] [] 0 (Log.january 15 0 0 0))
      (Log.info "x" (Log.february 15 0 0 0)) (by simp [Log.initFirst, Log.initCore])
    have he := h (Log.january 15 0 0 0) (Log.info "x" (Log.february 15 0 0 0)) _
      (by rw [hw]; exact List.mem_append_right _ (List.mem_singleton_self _))
    have hfp : (Log.rotate cfg (Log.initFirst cfg 1 [] [] 0 (Log.january 15 0 0 0))
        (Log.info "x" (Log.february 15 0 0 0)).t).fp_ =
        List.take (cfg.LOG_NAME_LEN - 1 - 1) "/2024_01_15".toList := by
      have : (Log.info "x" (Log.february 15 0 0 0)).t = Log.february 15 0 0 0 := rfl
      rw [this, Log.rotate_of_not_need hn]
      rfl
    simp only [hfp] at he
    have hfeb : Log.dateTail (Log.info "x" (Log.february 15 0 0 0)).t = "2024_02_15".toList := by
      decide
    have key : ∀ rest : Log.Str,
        List.take (cfg.LOG_NAME_LEN - 1 - 1) "/2024_01_15".toList ≠
          "/2024_02_15".toList ++ rest := by
      intro rest e
      have e7 := congrArg (fun l => l[7]?) e
      simp only [List.getElem?_take] at e7
      split_ifs at e7 <;> simp at e7
    rcases he with he | ⟨k, he⟩
    · unfold Log.dayName at he
      rw [hfeb] at he
      exact key [] (by simpa using he)
    · unfold Log.shardName at he
      rw [hfeb] at he
      exact key (['-'] ++ Log.fmtD k) (by simpa using he)

/-- C8, amended: in synchronous mode, for every sequence of `init` and `write`
calls in which every name that is built fits its buffer and every `write` is
stamped with the calendar date of the operation before it or else with
another day of the month, every line is written to a file whose name encodes
the calendar date (year, month and day) of the time stamp of the line.
(Below, `c` is any call of the sequence and `ops` the operations between the
first `init` and `c`.) -/
theorem Log.line_file_date (cfg : Log.Config) (level : Int) (path suffix : Log.Str)
    (maxQueueSize : Int) (t0 : Log.Tm) (ops : List Log.Op) (c : Log.Call)
    (hsync : maxQueueSize ≤ 0) (hops : ∀ op ∈ ops, op.isSync = true)
    (hfit0 : (Log.dayName path suffix t0).length + 1 ≤ cfg.LOG_NAME_LEN - 1)
    (hfit : Log.namesFit cfg (Log.initFirst cfg level path suffix maxQueueSize t0)
      (ops ++ [Log.Op.write c]) = true)
    (hdated : Log.wellDated t0 (ops ++ [Log.Op.write c]) = true) :
    ∃ f : Log.Str,
      (Log.write cfg (Log.run cfg (Log.initFirst cfg level path suffix maxQueueSize t0) ops)
          c).written =
        (Log.run cfg (Log.initFirst cfg level path suffix maxQueueSize t0) ops).written
          ++ [(f, Log.lineOf c)]
      ∧ Log.EncodesDate
          (Log.run cfg (Log.initFirst cfg level path suffix maxQueueSize t0) ops).path_
          (Log.run cfg (Log.initFirst cfg level path suffix maxQueueSize t0) ops).suffix_
          c.t f := by
  have hq : ¬ (maxQueueSize > 0) := by omega
  have h0 : Log.DateInv (Log.initFirst cfg level path suffix maxQueueSize t0) t0 :=
    ⟨by simp [Log.initFirst, Log.initCore, hq], rfl, Or.inl (Log.snprintf_of_fits hfit0), rfl⟩
  exact Log.run_dateInv cfg c ops _ t0 h0 hops hfit hdated

/-- Witness of C8: a logger opened on 2024-01-15, written to on that day and on
the 16th, then opened again on 2024-02-17 under another path; the names fit,
every change of date changes the day of the month, and the line stamped
2024-02-17 goes to a file whose name encodes 2024-02-17. -/
theorem Log.line_file_date_witness :
    ((0 : Int) ≤ 0 ∧
      (Log.dayName "./log".toList ".log".toList (Log.january 15 7 0 0)).length + 1
        ≤ Log.sampleCfg.LOG_NAME_LEN - 1 ∧
      Log.namesFit Log.sampleCfg
        (Log.initFirst Log.sampleCfg 1 "./log".toList ".log".toList 0 (Log.january 15 7 0 0))
        (Log.sampleOps ++ [Log.Op.write (Log.info "c" (Log.february 17 8 0 0))]) = true ∧
      Log.wellDated (Log.january 15 7 0 0)
        (Log.sampleOps ++ [Log.Op.write (Log.info "c" (Log.february 17 8 0 0))]) = true) ∧
      ∃ f : Log.Str,
        (Log.write Log.sampleCfg
          (Log.run Log.sampleCfg
            (Log.initFirst Log.sampleCfg 1 "./log".toList ".log".toList 0 (Log.january 15 7 0 0))
            Log.sampleOps)
          (Log.info "c" (Log.february 17 8 0 0))).written =
          (Log.run Log.sampleCfg
            (Log.initFirst Log.sampleCfg 1 "./log".toList ".log".toList 0 (Log.january 15 7 0 0))
            Log.sampleOps).written
            ++ [(f, Log.lineOf (Log.info "c" (Log.february 17 8 0 0)))]
        ∧ Log.EncodesDate
            (Log.run Log.sampleCfg
              (Log.initFirst Log.sampleCfg 1 "./log".toList ".log".toList 0 (Log.january 15 7 0 0))
              Log.sampleOps).path_
            (Log.run Log.sampleCfg
              (Log.initFirst Log.sampleCfg 1 "./log".toList ".log".toList 0 (Log.january 15 7 0 0))
              Log.sampleOps).suffix_
            (Log.info "c" (Log.february 17 8 0 0)).t f :=
  ⟨⟨by decide, by decide, by decide, by decide⟩,
    Log.line_file_date Log.sampleCfg 1 "./log".toList ".log".toList 0 (Log.january 15 7 0 0)
      Log.sampleOps (Log.info "c" (Log.february 17 8 0 0)) (by decide) (by decide) (by decide)
      (by decide) (by decide)⟩

namespace Log

/-! ### The asynchronous logger -/

theorem take9_levelTitle (level : Int) : (levelTitle level).take 9 = levelTitle level := by
  unfold levelTitle; split_ifs <;> rfl

/-- `emit` on an asynchronous logger whose queue has room: the line is queued. -/
theorem emit_push {s : State} {q : BlockDeque} (c : Call) (ha : s.isAsync_ = true)
    (hq : s.deque_ = some q) (hfull : q.full = false) :
    emit s c =
      { s with
        lineCount_ := s.lineCount_ + 1
        buff_ := []
        deque_ := some (q.push_back (s.buff_ ++ lineOf c)) } := by
  simp [emit, AppendLogLevelTitle_, ha, hq, hfull, lineOf, take9_levelTitle, List.append_assoc]

/-- `emit` on an asynchronous logger whose queue is full: the line is written. -/
theorem emit_full {s : State} {q : BlockDeque} (c : Call) (ha : s.isAsync_ = true)
    (hq : s.deque_ = some q) (hfull : q.full = true) :
    emit s c =
      { s with
        lineCount_ := s.lineCount_ + 1
        buff_ := []
        written := s.written ++ [(s.fp_, s.buff_ ++ lineOf c)] } := by
  simp [emit, AppendLogLevelTitle_, ha, hq, hfull, lineOf, take9_levelTitle, List.append_assoc]

/-- A whole call on an asynchronous logger whose queue has room. -/
theorem write_push (cfg : Config) {s : State} {q : BlockDeque} (c : Call)
    (ha : s.isAsync_ = true) (hq : s.deque_ = some q) (hroom : q.items.length < q.capacity)
    (hb : s.buff_ = []) :
    (write cfg s c).isAsync_ = true ∧ (write cfg s c).deque_ = some (q.push_back (lineOf c)) ∧
      (write cfg s c).buff_ = [] ∧ (write cfg s c).written = s.written := by
  obtain ⟨_, _, r3, r4, r5, r6, _⟩ := rotate_fields cfg s c.t
  have hfull : q.full = false := by
    simp [BlockDeque.full, hroom]
  rw [write, emit_push c (by rw [r3, ha]) (by rw [r6, hq]) hfull]
  simp [r3, r4, r5, ha, hb]

end Log

/-- C5, evaluated at the failing input `maxQueueSize = 2`: `init` builds the
queue with the capacity of a default-constructed `BlockDeque`, whatever
`maxQueueSize` is, so when that capacity exceeds 2 and two lines are queued
the third call still finds room and queues its line; nothing reaches the
file. -/
theorem Log.init_ignores_maxQueueSize (cfg : Log.Config) (level : Int) (path suffix : Log.Str)
    (t0 : Log.Tm) (c1 c2 c3 : Log.Call) (h : 2 < cfg.dequeCapacity) :
    (∀ maxQueueSize : Int, 0 < maxQueueSize →
        (Log.initFirst cfg level path suffix maxQueueSize t0).deque_ =
          some ⟨cfg.dequeCapacity, []⟩)
      ∧ (Log.writes cfg (Log.initFirst cfg level path suffix 2 t0) [c1, c2]).deque_ =
          some ⟨cfg.dequeCapacity, [Log.lineOf c1, Log.lineOf c2]⟩
      ∧ Log.fallsBack (Log.rotate cfg
          (Log.writes cfg (Log.initFirst cfg level path suffix 2 t0) [c1, c2]) c3.t) = false
      ∧ (Log.writes cfg (Log.initFirst cfg level path suffix 2 t0) [c1, c2, c3]).deque_ =
          some ⟨cfg.dequeCapacity, [Log.lineOf c1, Log.lineOf c2, Log.lineOf c3]⟩
      ∧ (Log.writes cfg (Log.initFirst cfg level path suffix 2 t0) [c1, c2, c3]).written = [] := by
  have hinit : ∀ maxQueueSize : Int, 0 < maxQueueSize →
      (Log.initFirst cfg level path suffix maxQueueSize t0).deque_ =
        some ⟨cfg.dequeCapacity, []⟩ := by
    intro m hm
    simp [Log.initFirst, Log.initCore, hm]
  have ha0 : (Log.initFirst cfg level path suffix 2 t0).isAsync_ = true := by
    simp [Log.initFirst, Log.initCore]
  obtain ⟨a1, q1, b1, w1⟩ := Log.write_push cfg c1 ha0 (hinit 2 (by decide))
    (by simpa using (by omega : 0 < cfg.dequeCapacity)) rfl
  obtain ⟨a2, q2, b2, w2⟩ := Log.write_push cfg c2 a1 q1
    (by simp [Log.BlockDeque.push_back]; omega) b1
  obtain ⟨a3, q3, b3, w3⟩ := Log.write_push cfg c3 a2 q2
    (by simp [Log.BlockDeque.push_back]; omega) b2
  obtain ⟨_, _, r3, _, _, r6, _⟩ := Log.rotate_fields cfg
    (Log.write cfg (Log.write cfg (Log.initFirst cfg level path suffix 2 t0) c1) c2) c3.t
  refine ⟨hinit, ?_, ?_, ?_, ?_⟩
  · show (Log.write cfg (Log.write cfg _ c1) c2).deque_ = _
    rw [q2]; rfl
  · show Log.fallsBack (Log.rotate cfg (Log.write cfg (Log.write cfg _ c1) c2) c3.t) = false
    unfold Log.fallsBack
    rw [r3, r6, a2, q2]
    simp [Log.BlockDeque.full, Log.BlockDeque.push_back]
    omega
  · show (Log.write cfg (Log.write cfg (Log.write cfg _ c1) c2) c3).deque_ = _
    rw [q3]; rfl
  · show (Log.write cfg (Log.write cfg (Log.write cfg _ c1) c2) c3).written = _
    rw [w3, w2, w1]; rfl

/-- Witness of C5: with a default capacity of 1000 and `maxQueueSize = 2`, the
third of three calls is queued and the file stays empty. -/
theorem Log.init_ignores_maxQueueSize_witness :
    2 < Log.sampleCfg.dequeCapacity ∧
      ((Log.writes Log.sampleCfg
          (Log.initFirst Log.sampleCfg 1 "./log".toList ".log".toList 2 (Log.january 15 7 0 0))
          [Log.info "a" (Log.january 15 8 0 0), Log.info "b" (Log.january 15 8 0 1),
            Log.info "c" (Log.january 15 8 0 2)]).deque_.map (fun q => q.items.length)
        = some 3) ∧
      (Log.writes Log.sampleCfg
          (Log.initFirst Log.sampleCfg 1 "./log".toList ".log".toList 2 (Log.january 15 7 0 0))
          [Log.info "a" (Log.january 15 8 0 0), Log.info "b" (Log.january 15 8 0 1),
            Log.info "c" (Log.january 15 8 0 2)]).written = [] :=
  ⟨by decide,
    by
      rw [(Log.init_ignores_maxQueueSize Log.sampleCfg 1 "./log".toList ".log".toList
        (Log.january 15 7 0 0) (Log.info "a" (Log.january 15 8 0 0))
        (Log.info "b" (Log.january 15 8 0 1)) (Log.info "c" (Log.january 15 8 0 2))
        (by decide)).2.2.2.1]
      rfl,
    (Log.init_ignores_maxQueueSize Log.sampleCfg 1 "./log".toList ".log".toList
      (Log.january 15 7 0 0) (Log.info "a" (Log.january 15 8 0 0))
      (Log.info "b" (Log.january 15 8 0 1)) (Log.info "c" (Log.january 15 8 0 2))
      (by decide)).2.2.2.2⟩

namespace Log

theorem step_asyncInv (cfg : Config) {y : Sys} {lines : List Str} (ev : Ev)
    (h : AsyncInv y lines) (hfb : fallbacks cfg y [ev] = 0) :
    AsyncInv (Sys.step cfg y ev) (lines ++ linesOf [ev]) := by
  obtain ⟨ha, hb, q, hq, hl⟩ := h
  cases ev with
  | rotate t =>
    obtain ⟨_, _, r3, r4, r5, r6, _⟩ := rotate_fields cfg y.log t
    refine ⟨by simp [Sys.step, r3, ha], by simp [Sys.step, r4, hb], q,
      by simp [Sys.step, r6, hq], ?_⟩
    simp [Sys.step, r5, linesOf, hl]
  | emit c =>
    have hfull : q.full = false := by
      simp only [fallbacks, fallsBack, ha, hq] at hfb
      by_contra hne
      simp [hne] at hfb
    refine ⟨?_, ?_, q.push_back (lineOf c), ?_, ?_⟩
    · simp [Sys.step, emit_push c ha hq hfull, ha]
    · simp [Sys.step, emit_push c ha hq hfull]
    · simp [Sys.step, emit_push c ha hq hfull, hb]
    · simp only [Sys.step, emit_push c ha hq hfull, linesOf, BlockDeque.push_back]
      rw [← hl]
      simp [List.append_assoc]
  | pop =>
    simp only [linesOf, List.append_nil, Sys.step, AsyncWrite_pop]
    cases hs : y.str with
    | some x => simp only [hs]; exact ⟨ha, hb, q, hq, by rw [← hl, hs]⟩
    | none =>
      simp only [hs, hq]
      cases hi : q.items with
      | nil => simp only [hi]; exact ⟨ha, hb, q, hq, by rw [← hl, hs]⟩
      | cons x rest =>
        simp only [hi]
        refine ⟨ha, hb, _, rfl, ?_⟩
        rw [← hl, hs, hi]
        simp
  | fputs =>
    simp only [linesOf, List.append_nil, Sys.step, AsyncWrite_fputs]
    cases hs : y.str with
    | none => simp only [hs]; exact ⟨ha, hb, q, hq, by rw [← hl, hs]⟩
    | some x =>
      simp only [hs]
      refine ⟨ha, hb, q, hq, ?_⟩
      rw [← hl, hs]
      simp

theorem fallbacks_cons (cfg : Config) (y : Sys) (ev : Ev) (evs : List Ev) :
    fallbacks cfg y (ev :: evs) = fallbacks cfg y [ev] + fallbacks cfg (Sys.step cfg y ev) evs := by
  cases ev <;> simp [fallbacks]

theorem linesOf_cons (ev : Ev) (evs : List Ev) :
    linesOf (ev :: evs) = linesOf [ev] ++ linesOf evs := by
  cases ev <;> simp [linesOf]

theorem run_asyncInv (cfg : Config) :
    ∀ (evs : List Ev) (y : Sys) (lines : List Str), AsyncInv y lines →
      fallbacks cfg y evs = 0 → AsyncInv (Sys.run cfg y evs) (lines ++ linesOf evs) := by
  intro evs
  induction evs with
  | nil => intro y lines h _; simpa [Sys.run, linesOf] using h
  | cons ev evs ih =>
    intro y lines h hfb
    rw [fallbacks_cons] at hfb
    have h1 := step_asyncInv cfg ev h (by omega)
    have h2 := ih (Sys.step cfg y ev) _ h1 (by omega)
    rw [linesOf_cons, ← List.append_assoc]
    exact h2

end Log

/-- C6, amended: in asynchronous mode, for every schedule of the steps of the
calls of one caller (rotation block, emission block) and of the flush thread
(`pop`, `fputs`) in which no call finds the queue full, the lines written,
then the line the flush thread holds, then the queued lines are the lines of
the calls in call order.  So once the queue is empty and the flush thread has
written what it popped, the record of writes is exactly the lines in call
order, and every file holds its lines in call order. -/
theorem Log.async_order (cfg : Log.Config) (level : Int) (path suffix : Log.Str)
    (maxQueueSize : Int) (t0 : Log.Tm) (evs : List Log.Ev)
    (hasync : 0 < maxQueueSize)
    (hfb : Log.fallbacks cfg ⟨Log.initFirst cfg level path suffix maxQueueSize t0, none⟩ evs = 0) :
    (∃ q : Log.BlockDeque,
        (Log.Sys.run cfg ⟨Log.initFirst cfg level path suffix maxQueueSize t0, none⟩ evs).log.deque_
          = some q
        ∧ (Log.Sys.run cfg ⟨Log.initFirst cfg level path suffix maxQueueSize t0, none⟩
              evs).log.written.map Prod.snd
            ++ (Log.Sys.run cfg ⟨Log.initFirst cfg level path suffix maxQueueSize t0, none⟩
              evs).str.toList
            ++ q.items = Log.linesOf evs
        ∧ (q.items = [] →
            (Log.Sys.run cfg ⟨Log.initFirst cfg level path suffix maxQueueSize t0, none⟩ evs).str
              = none →
            (Log.Sys.run cfg ⟨Log.initFirst cfg level path suffix maxQueueSize t0, none⟩
              evs).log.written.map Prod.snd = Log.linesOf evs))
      ∧ ∀ f : Log.Str,
          (((Log.Sys.run cfg ⟨Log.initFirst cfg level path suffix maxQueueSize t0, none⟩
            evs).log.written.filter (fun e => decide (e.1 = f))).map Prod.snd).Sublist
            (Log.linesOf evs) := by
  have h0 : Log.AsyncInv ⟨Log.initFirst cfg level path suffix maxQueueSize t0, none⟩ [] := by
    refine ⟨by simp [Log.initFirst, Log.initCore, hasync], rfl,
      ⟨cfg.dequeCapacity, []⟩, by simp [Log.initFirst, Log.initCore, hasync], rfl⟩
  obtain ⟨_, _, q, hq, hl⟩ := Log.run_asyncInv cfg evs _ [] h0 hfb
  rw [List.nil_append] at hl
  refine ⟨⟨q, hq, hl, fun hq0 hs0 => ?_⟩, fun f => ?_⟩
  · rw [← hl, hq0, hs0]; simp
  · have h1 : ((Log.Sys.run cfg ⟨Log.initFirst cfg level path suffix maxQueueSize t0, none⟩
        evs).log.written.map Prod.snd).Sublist (Log.linesOf evs) := by
      rw [← hl, List.append_assoc]
      exact List.sublist_append_left _ _
    exact ((List.filter_sublist _).map Prod.snd).trans h1

namespace Log

theorem run_append (cfg : Config) (y : Sys) (a b : List Ev) :
    Sys.run cfg y (a ++ b) = Sys.run cfg (Sys.run cfg y a) b := by
  simp [Sys.run, List.foldl_append]

theorem run_callEvs (cfg : Config) (y : Sys) (c : Call) :
    Sys.run cfg y (callEvs c) = ⟨write cfg y.log c, y.str⟩ := rfl

/-- Calls made while the queue has room fill the queue and write nothing. -/
theorem run_fill (cfg : Config) (cap : Nat) (c : Call) :
    ∀ (k : Nat) (y : Sys) (k0 : Nat), Filled y cap k0 (lineOf c) → k0 + k ≤ cap →
      Filled (Sys.run cfg y (callsEvs (List.replicate k c))) cap (k0 + k) (lineOf c) := by
  intro k
  induction k with
  | zero => intro y k0 h _; simpa [callsEvs, Sys.run] using h
  | succ k ih =>
    intro y k0 h hk
    obtain ⟨ha, hb, hs, hw, hq⟩ := h
    have hstep : callsEvs (List.replicate (k + 1) c) =
        callEvs c ++ callsEvs (List.replicate k c) := by
      simp [callsEvs, List.replicate_succ]
    rw [hstep, run_append, run_callEvs]
    obtain ⟨a1, q1, b1, w1⟩ := write_push cfg c ha hq
      (by simp only [List.length_replicate]; omega) hb
    have := ih ⟨write cfg y.log c, y.str⟩ (k0 + 1)
      ⟨a1, b1, hs, by rw [w1, hw], by
        rw [q1]
        simp [BlockDeque.push_back, List.replicate_succ']⟩ (by omega)
    rwa [Nat.add_assoc, Nat.add_comm 1 k] at this

/-- The flush thread, left alone, writes the queued lines in queue order. -/
theorem run_drain (cfg : Config) (cap : Nat) :
    ∀ (items : List Str) (y : Sys), y.str = none → y.log.deque_ = some ⟨cap, items⟩ →
      (Sys.run cfg y (drainEvs items.length)).str = none ∧
        (Sys.run cfg y (drainEvs items.length)).log.deque_ = some ⟨cap, []⟩ ∧
        (Sys.run cfg y (drainEvs items.length)).log.written.map Prod.snd =
          y.log.written.map Prod.snd ++ items := by
  intro items
  induction items with
  | nil => intro y hs hq; simp [drainEvs, Sys.run, hs, hq]
  | cons x rest ih =>
    intro y hs hq
    have hstep : drainEvs (x :: rest).length = [Ev.pop, Ev.fputs] ++ drainEvs rest.length := by
      simp [drainEvs, List.replicate_succ]
    have h2 : Sys.run cfg y [Ev.pop, Ev.fputs] =
        ⟨{ y.log with deque_ := some ⟨cap, rest⟩,
                      written := y.log.written ++ [(y.log.fp_, x)] }, none⟩ := by
      simp [Sys.run, Sys.step, AsyncWrite_pop, AsyncWrite_fputs, hs, hq]
    obtain ⟨i1, i2, i3⟩ := ih (Sys.run cfg y [Ev.pop, Ev.fputs]) (by rw [h2]) (by rw [h2])
    rw [hstep, run_append]
    refine ⟨i1, i2, ?_⟩
    rw [i3, h2]
    simp

end Log

/-- C6, as stated, fails: whatever the constants (with a queue capacity of at
least 1), when the caller fills the queue and calls `write` once more, the
line of the last call is written at once, ahead of the queued lines; after
the flush thread has emptied the queue the file holds the last line first. -/
theorem Log.async_order_counterexample :
    ¬ ∃ cfg : Log.Config, 0 < cfg.dequeCapacity ∧
      ∀ (level : Int) (path suffix : Log.Str) (maxQueueSize : Int) (t0 : Log.Tm)
        (cs : List Log.Call) (n : Nat), 0 < maxQueueSize →
        (Log.Sys.run cfg ⟨Log.initFirst cfg level path suffix maxQueueSize t0, none⟩
          (Log.callsEvs cs ++ Log.drainEvs n)).log.deque_.map (fun q => q.items) = some [] →
        (Log.Sys.run cfg ⟨Log.initFirst cfg level path suffix maxQueueSize t0, none⟩
          (Log.callsEvs cs ++ Log.drainEvs n)).str = none →
        (Log.Sys.run cfg ⟨Log.initFirst cfg level path suffix maxQueueSize t0, none⟩
          (Log.callsEvs cs ++ Log.drainEvs n)).log.written.map Prod.snd = cs.map Log.lineOf := by
  rintro ⟨cfg, hcap, h⟩
  have h0 : Log.Filled ⟨Log.initFirst cfg 1 "./log".toList ".log".toList 1
      (Log.january 15 7 0 0), none⟩ cfg.dequeCapacity 0
      (Log.lineOf (Log.info "a" (Log.january 15 8 0 0))) := by
    refine ⟨by simp [Log.initFirst, Log.initCore], rfl, rfl, rfl, ?_⟩
    simp [Log.initFirst, Log.initCore]
  have h1 := Log.run_fill cfg cfg.dequeCapacity (Log.info "a" (Log.january 15 8 0 0))
    cfg.dequeCapacity _ 0 h0 (by omega)
  rw [Nat.zero_add] at h1
  obtain ⟨ha, hb, hs, hw, hq⟩ := h1
  -- the call that finds the queue full
  obtain ⟨_, _, r3, r4, r5, r6, _⟩ := Log.rotate_fields cfg
    (Log.Sys.run cfg ⟨Log.initFirst cfg 1 "./log".toList ".log".toList 1
      (Log.january 15 7 0 0), none⟩
      (Log.callsEvs (List.replicate cfg.dequeCapacity
        (Log.info "a" (Log.january 15 8 0 0))))).log (Log.info "b" (Log.january 15 8 0 1)).t
  have hfull := Log.emit_full (q := ⟨cfg.dequeCapacity, List.replicate cfg.dequeCapacity
      (Log.lineOf (Log.info "a" (Log.january 15 8 0 0)))⟩)
    (Log.info "b" (Log.january 15 8 0 1)) (r3.trans ha) (r6.trans hq)
    (by simp [Log.BlockDeque.full])
  have hd := Log.run_drain cfg cfg.dequeCapacity
    (List.replicate cfg.dequeCapacity (Log.lineOf (Log.info "a" (Log.january 15 8 0 0))))
    (Log.Sys.run cfg (Log.Sys.run cfg ⟨Log.initFirst cfg 1 "./log".toList ".log".toList 1
      (Log.january 15 7 0 0), none⟩
      (Log.callsEvs (List.replicate cfg.dequeCapacity (Log.info "a" (Log.january 15 8 0 0)))))
      (Log.callEvs (Log.info "b" (Log.january 15 8 0 1))))
    (by rw [Log.run_callEvs]; exact hs)
    (by rw [Log.run_callEvs]; show (Log.write cfg _ _).deque_ = _
        rw [Log.write, hfull]; exact r6.trans hq)
  rw [List.length_replicate] at hd
  obtain ⟨d1, d2, d3⟩ := hd
  have hsched : Log.callsEvs (List.replicate cfg.dequeCapacity
      (Log.info "a" (Log.january 15 8 0 0)) ++ [Log.info "b" (Log.january 15 8 0 1)]) =
      Log.callsEvs (List.replicate cfg.dequeCapacity (Log.info "a" (Log.january 15 8 0 0)))
        ++ Log.callEvs (Log.info "b" (Log.january 15 8 0 1)) := by
    simp [Log.callsEvs]
  have hc := h 1 "./log".toList ".log".toList 1 (Log.january 15 7 0 0)
    (List.replicate cfg.dequeCapacity (Log.info "a" (Log.january 15 8 0 0)) ++
      [Log.info "b" (Log.january 15 8 0 1)]) cfg.dequeCapacity (by decide)
  rw [hsched, Log.run_append, Log.run_append] at hc
  have hc2 := hc (by rw [d2]; rfl) d1
  rw [d3, Log.run_callEvs] at hc2
  have hwr : (Log.write cfg (Log.Sys.run cfg ⟨Log.initFirst cfg 1 "./log".toList ".log".toList 1
      (Log.january 15 7 0 0), none⟩
      (Log.callsEvs (List.replicate cfg.dequeCapacity
        (Log.info "a" (Log.january 15 8 0 0))))).log
      (Log.info "b" (Log.january 15 8 0 1))).written.map Prod.snd =
      [Log.lineOf (Log.info "b" (Log.january 15 8 0 1))] := by
    rw [Log.write, hfull]
    show List.map Prod.snd (_ ++ [(_, _ ++ _)]) = _
    rw [r5, hw, r4, hb]
    rfl
  simp only [hwr] at hc2
  obtain ⟨m, hm⟩ : ∃ m, cfg.dequeCapacity = m + 1 := ⟨cfg.dequeCapacity - 1, by omega⟩
  rw [hm] at hc2
  simp only [List.replicate_succ, List.map_append, List.map_cons, List.cons_append,
    List.singleton_append, List.cons.injEq] at hc2
  exact absurd hc2.1 (by decide)

/-- Witness of C6: three calls interleaved with the steps of the flush thread,
a queue that never fills; once the queue is drained the three lines stand in
call order. -/
theorem Log.async_order_witness :
    ((0 : Int) < 5 ∧
      Log.fallbacks Log.sampleCfg
        ⟨Log.initFirst Log.sampleCfg 1 "./log".toList ".log".toList 5 (Log.january 15 7 0 0), none⟩
        (Log.callEvs (Log.info "a" (Log.january 15 8 0 0)) ++ [Log.Ev.pop] ++
          Log.callEvs (Log.info "b" (Log.january 15 8 0 1)) ++ [Log.Ev.fputs, Log.Ev.pop] ++
          Log.callEvs (Log.info "c" (Log.january 15 8 0 2)) ++
          [Log.Ev.fputs, Log.Ev.pop, Log.Ev.fputs]) = 0) ∧
      (Log.Sys.run Log.sampleCfg
        ⟨Log.initFirst Log.sampleCfg 1 "./log".toList ".log".toList 5 (Log.january 15 7 0 0), none⟩
        (Log.callEvs (Log.info "a" (Log.january 15 8 0 0)) ++ [Log.Ev.pop] ++
          Log.callEvs (Log.info "b" (Log.january 15 8 0 1)) ++ [Log.Ev.fputs, Log.Ev.pop] ++
          Log.callEvs (Log.info "c" (Log.january 15 8 0 2)) ++
          [Log.Ev.fputs, Log.Ev.pop, Log.Ev.fputs])).log.written.map Prod.snd =
        ["2024-01-15 08:00:00.000000 [info] : a\n".toList,
          "2024-01-15 08:00:01.000000 [info] : b\n".toList,
          "2024-01-15 08:00:02.000000 [info] : c\n".toList] :=
  ⟨⟨by decide, by decide⟩, by
    obtain ⟨⟨q, hq, _, himp⟩, _⟩ := Log.async_order Log.sampleCfg 1 "./log".toList ".log".toList 5
      (Log.january 15 7 0 0)
      (Log.callEvs (Log.info "a" (Log.january 15 8 0 0)) ++ [Log.Ev.pop] ++
        Log.callEvs (Log.info "b" (Log.january 15 8 0 1)) ++ [Log.Ev.fputs, Log.Ev.pop] ++
        Log.callEvs (Log.info "c" (Log.january 15 8 0 2)) ++
        [Log.Ev.fputs, Log.Ev.pop, Log.Ev.fputs]) (by decide) (by decide)
    have hd : (Log.Sys.run Log.sampleCfg
        ⟨Log.initFirst Log.sampleCfg 1 "./log".toList ".log".toList 5 (Log.january 15 7 0 0), none⟩
        (Log.callEvs (Log.info "a" (Log.january 15 8 0 0)) ++ [Log.Ev.pop] ++
          Log.callEvs (Log.info "b" (Log.january 15 8 0 1)) ++ [Log.Ev.fputs, Log.Ev.pop] ++
          Log.callEvs (Log.info "c" (Log.january 15 8 0 2)) ++
          [Log.Ev.fputs, Log.Ev.pop, Log.Ev.fputs])).log.deque_ = some ⟨1000, []⟩ := by decide
    rw [hd] at hq
    cases hq
    exact (himp rfl (by decide)).trans (by decide)⟩

namespace Log

/-! ### The synchronous logger next to an idle flush thread -/

theorem stored_of_fits {c : Call} (h : c.msg.length < c.writable) (hn : NUL ∉ c.msg) :
    stored c = c.msg ++ ['\n'] := by
  unfold stored
  rw [if_pos h]
  apply List.takeWhile_eq_self_iff.2
  intro ch hch
  rcases List.mem_append.1 hch with h1 | h1
  · have h2 : ch ≠ NUL := fun e => hn (e ▸ h1)
    simpa using h2
  · have h2 : ch = '\n' := by simpa using h1
    subst h2
    decide

theorem lineOf_of_fits {c : Call} (h : c.msg.length < c.writable) (hn : NUL ∉ c.msg) :
    lineOf c = timeStamp c ++ levelTitle c.level ++ c.msg ++ ['\n'] := by
  rw [lineOf, stored_of_fits h hn, ← List.append_assoc]

/-- The text that reaches the file is never longer than what line 141 lets
`vsnprintf` store, plus the newline. -/
theorem stored_length_le (c : Call) : (stored c).length ≤ c.writable := by
  unfold stored
  refine le_trans (List.takeWhile_prefix _).length_le ?_
  split_ifs with h
  · simp only [List.length_append, List.length_cons, List.length_nil]
    omega
  · simp only [List.length_take]
    omega

/-- The calls alone, on a synchronous logger (no step of the flush thread). -/
theorem sync_writes_core (cfg : Config) (dq : Option BlockDeque)
    (wr : List (Str × Str)) (level : Int) (path suffix : Str)
    (maxQueueSize : Int) (t0 : Tm) (cs : List Call)
    (hsync : maxQueueSize ≤ 0) (hn : cs.length ≤ cfg.MAX_LINES)
    (hday : ∀ c ∈ cs, SameDay c.t t0)
    (hfit : ∀ c ∈ cs, c.msg.length < c.writable)
    (hnul : ∀ c ∈ cs, NUL ∉ c.msg) :
    (∀ (k : Nat) (hk : k < cs.length),
        needRotate cfg
          (writes cfg (initCore cfg dq wr level path suffix maxQueueSize t0) (cs.take k))
          (cs.get ⟨k, hk⟩).t = false)
      ∧ (writes cfg (initCore cfg dq wr level path suffix maxQueueSize t0) cs).fp_ =
          initFileName cfg path suffix t0
      ∧ (writes cfg (initCore cfg dq wr level path suffix maxQueueSize t0) cs).written =
          wr ++ cs.map (fun c => (initFileName cfg path suffix t0,
            timeStamp c ++ levelTitle c.level ++ c.msg ++ ['\n'])) := by
  rcases Nat.eq_zero_or_pos cfg.MAX_LINES with hL | hL
  · have : cs = [] := List.eq_nil_of_length_eq_zero (by omega)
    subst this
    refine ⟨fun k hk => absurd hk (by simp), rfl, ?_⟩
    simp [writes, initCore]
  · have h0 := initCore_syncAt cfg dq wr level path suffix maxQueueSize t0 hsync hL
    refine ⟨?_, ?_, ?_⟩
    · intro k hk
      have hpre := (writes_syncAt cfg hL (cs.take k) _ 0 h0
        (fun c hc => hday c (List.mem_of_mem_take hc))).1
      have hlen : (cs.take k).length = k := by
        rw [List.length_take]; omega
      rw [hlen, Nat.zero_add] at hpre
      have := (write_syncAt (cs.get ⟨k, hk⟩) hpre (hday _ (List.get_mem _ _ _)) hL).2.2
      rw [this]
      have hk2 : k % cfg.MAX_LINES = k := Nat.mod_eq_of_lt (by omega)
      simp only [decide_eq_false_iff_not]
      omega
    · have := (writes_syncAt cfg hL cs _ 0 h0 hday).1.2.2.2.2.2.2
      rw [this]
      have hlt : 0 + cs.length - 1 < cfg.MAX_LINES := by omega
      simp only [fileAt, if_pos hlt]
    · have := (writes_syncAt cfg hL cs _ 0 h0 hday).2
      rw [this]
      congr 1
      rw [enumFrom_map_const (fun i => fileAt cfg path suffix t0 i) lineOf
        (initFileName cfg path suffix t0) cs 0
        (fun i _ h2 => by simp only [fileAt]; rw [if_pos (by omega)])]
      apply List.map_congr_left
      intro c hc
      rw [lineOf_of_fits (hfit c hc) (hnul c hc)]

/-- A call on a synchronous logger leaves the queue alone. -/
theorem write_deque_sync (cfg : Config) {s : State} (c : Call) (h : s.isAsync_ = false) :
    (write cfg s c).deque_ = s.deque_ := by
  obtain ⟨_, _, r3, _, _, r6, _⟩ := rotate_fields cfg s c.t
  rw [write, emit_sync c (r3.trans h)]
  exact r6

/-- A line that is still queued when `init` switches the logger to synchronous
mode: `init` keeps the queue and the flush thread, `AsyncWrite_` does not test
`isAsync_`, and the line is written after the next call has written its
own. -/
theorem pending_line_written (cfg : Config) (s1 : State) (cap : Nat) (x : Str) (level : Int)
    (path suffix : Str) (t0 : Tm) (c : Call) (hq : s1.deque_ = some ⟨cap, [x]⟩) :
    (Sys.run cfg ⟨init cfg s1 level path suffix 0 t0, none⟩
      (callEvs c ++ [Ev.pop, Ev.fputs])).log.written.length = s1.written.length + 2 := by
  have hs : (init cfg s1 level path suffix 0 t0).isAsync_ = false := by
    simp [init, initCore]
  have hd : (init cfg s1 level path suffix 0 t0).deque_ = s1.deque_ := by
    simp [init, initCore]
  have hw0 : (init cfg s1 level path suffix 0 t0).written = s1.written := rfl
  have hw := write_written_sync cfg c hs
  have hdq := write_deque_sync cfg c hs
  have h2 := (run_drain cfg cap [x] ⟨write cfg (init cfg s1 level path suffix 0 t0) c, none⟩ rfl
    (by rw [hdq, hd, hq])).2.2
  have e : drainEvs [x].length = [Ev.pop, Ev.fputs] := rfl
  rw [e] at h2
  have h3 := congrArg List.length h2
  rw [run_append, run_callEvs]
  simp only [List.length_map, List.length_append, List.length_cons, List.length_nil, hw,
    hw0] at h3
  rw [h3]

/-- On a quiet synchronous logger the steps of the flush thread do nothing:
`pop` stays blocked on the empty queue. -/
theorem step_flush_of_quiet (cfg : Config) {y : Sys} (h : SyncQuiet y) {ev : Ev}
    (he : ev.isCaller = false) : Sys.step cfg y ev = y := by
  cases ev with
  | rotate t => simp [Ev.isCaller] at he
  | emit c => simp [Ev.isCaller] at he
  | pop =>
    show AsyncWrite_pop y = y
    unfold AsyncWrite_pop
    rw [h.1]
    cases hd : y.log.deque_ with
    | none => rfl
    | some q => simp [h.2.2 q hd]
  | fputs =>
    show AsyncWrite_fputs y = y
    unfold AsyncWrite_fputs
    rw [h.1]

/-- The steps of the caller keep a quiet synchronous logger quiet: line 147
does not queue while `isAsync_` is false. -/
theorem step_quiet (cfg : Config) {y : Sys} (h : SyncQuiet y) (ev : Ev) :
    SyncQuiet (Sys.step cfg y ev) := by
  by_cases he : ev.isCaller = false
  · rw [step_flush_of_quiet cfg h he]
    exact h
  · cases ev with
    | rotate t =>
      obtain ⟨_, _, r3, _, _, r6, _⟩ := rotate_fields cfg y.log t
      exact ⟨h.1, r3.trans h.2.1, fun q hq => h.2.2 q (r6.symm.trans hq)⟩
    | emit c =>
      show SyncQuiet ⟨emit y.log c, y.str⟩
      rw [emit_sync c h.2.1]
      exact ⟨h.1, h.2.1, h.2.2⟩
    | pop => exact absurd rfl he
    | fputs => exact absurd rfl he

/-- A schedule on a quiet synchronous logger does what its caller steps do. -/
theorem run_quiet (cfg : Config) :
    ∀ (evs : List Ev) (y : Sys), SyncQuiet y →
      Sys.run cfg y evs = Sys.run cfg y (evs.filter Ev.isCaller) := by
  intro evs
  induction evs with
  | nil => intro y _; rfl
  | cons ev evs ih =>
    intro y h
    show Sys.run cfg (Sys.step cfg y ev) evs = _
    by_cases he : ev.isCaller = true
    · rw [List.filter_cons_of_pos he]
      exact ih _ (step_quiet cfg h ev)
    · have he2 : ev.isCaller = false := by simpa using he
      rw [List.filter_cons_of_neg he, step_flush_of_quiet cfg h he2]
      exact ih y h

/-- Uninterrupted calls are the calls of `writes`. -/
theorem run_callsEvs (cfg : Config) :
    ∀ (cs : List Call) (y : Sys), Sys.run cfg y (callsEvs cs) = ⟨writes cfg y.log cs, y.str⟩ := by
  intro cs
  induction cs with
  | nil => intro y; rfl
  | cons c cs ih =>
    intro y
    have hstep : callsEvs (c :: cs) = callEvs c ++ callsEvs cs := by
      simp [callsEvs]
    rw [hstep, run_append, run_callEvs, ih]
    rfl

/-- The caller steps before the first block of a call are the steps of the
calls before it. -/
theorem callsEvs_split :
    ∀ (cs : List Call) (p : List Ev) (t : Tm) (r : List Ev),
      callsEvs cs = p ++ Ev.rotate t :: r →
      ∃ (k : Nat) (hk : k < cs.length), p = callsEvs (cs.take k) ∧ t = (cs.get ⟨k, hk⟩).t := by
  intro cs
  induction cs with
  | nil =>
    intro p t r h
    have := congrArg List.length h
    simp [callsEvs] at this
    omega
  | cons c cs ih =>
    intro p t r h
    have hstep : callsEvs (c :: cs) = Ev.rotate c.t :: Ev.emit c :: callsEvs cs := by
      simp [callsEvs, callEvs]
    rw [hstep] at h
    match p, h with
    | [], h =>
      have h1 := (List.cons.inj h).1
      refine ⟨0, by simp, rfl, ?_⟩
      exact (Ev.rotate.inj h1).symm
    | [_], h =>
      have h2 := (List.cons.inj (List.cons.inj h).2).1
      exact absurd h2 (by simp)
    | e1 :: e2 :: p2, h =>
      have h1 := (List.cons.inj h).1
      have h2 := (List.cons.inj (List.cons.inj h).2).1
      have h3 := (List.cons.inj (List.cons.inj h).2).2
      obtain ⟨k, hk, hp, ht⟩ := ih p2 t r h3
      refine ⟨k + 1, by simpa using hk, ?_, ?_⟩
      · rw [List.take_succ_cons, ← h1, ← h2, hp]
        simp [callsEvs, callEvs]
      · simpa using ht

/-- A synchronous `init` on a logger whose queue holds no line, with an idle
flush thread, is quiet. -/
theorem initCore_quiet (cfg : Config) (dq : Option BlockDeque) (wr : List (Str × Str))
    (level : Int) (path suffix : Str) (maxQueueSize : Int) (t0 : Tm) (hsync : maxQueueSize ≤ 0)
    (hq : ∀ q, dq = some q → q.items = []) :
    SyncQuiet ⟨initCore cfg dq wr level path suffix maxQueueSize t0, none⟩ := by
  have h0 : ¬ (maxQueueSize > 0) := by omega
  refine ⟨rfl, ?_, ?_⟩
  · simp [initCore, h0]
  · intro q h
    apply hq q
    simpa [initCore, h0] using h

end Log

/-- C1, as stated, fails, in three ways, whatever the constants.
(1) Whatever number of writable bytes `buff_.WritableBytes()` reports on line
141, a message of that many characters is cut by `vsnprintf`, and the newline
is stored behind the NUL that ends the cut text.
(2) A message with a NUL character inside ends at that character in the file:
`fputs` writes a C string.
(3) `init` in synchronous mode on a logger that an earlier `init` made
asynchronous keeps the queue and the flush thread (lines 50-62); a line that
was still queued is then written by the flush thread into the file that the
second `init` opened, so that this file receives two lines for one call. -/
theorem Log.write_within_budget_counterexample :
    (¬ ∃ (cfg : Log.Config) (W : Nat), 0 < cfg.MAX_LINES ∧
      ∀ (path suffix : Log.Str) (t0 : Log.Tm) (c : Log.Call), c.writable = W →
        Log.SameDay c.t t0 →
        (Log.writes cfg (Log.initFirst cfg 1 path suffix 0 t0) [c]).written =
          [(Log.initFileName cfg path suffix t0,
            Log.timeStamp c ++ Log.levelTitle c.level ++ c.msg ++ ['\n'])])
    ∧ (¬ ∃ cfg : Log.Config, 0 < cfg.MAX_LINES ∧
      ∀ (path suffix : Log.Str) (t0 : Log.Tm) (c : Log.Call), c.msg.length < c.writable →
        Log.SameDay c.t t0 →
        (Log.writes cfg (Log.initFirst cfg 1 path suffix 0 t0) [c]).written =
          [(Log.initFileName cfg path suffix t0,
            Log.timeStamp c ++ Log.levelTitle c.level ++ c.msg ++ ['\n'])])
    ∧ (¬ ∃ cfg : Log.Config, 0 < cfg.MAX_LINES ∧ 0 < cfg.dequeCapacity ∧
      ∀ (maxQueueSize0 : Int) (evs0 evs : List Log.Ev) (path suffix : Log.Str)
        (t0 : Log.Tm) (c : Log.Call),
        c.msg.length < c.writable → Log.NUL ∉ c.msg → Log.SameDay c.t t0 →
        evs.filter Log.Ev.isCaller = Log.callEvs c →
        (Log.Sys.run cfg
          ⟨Log.init cfg
            (Log.Sys.run cfg ⟨Log.initFirst cfg 1 path suffix maxQueueSize0 t0, none⟩ evs0).log
            1 path suffix 0 t0,
           (Log.Sys.run cfg ⟨Log.initFirst cfg 1 path suffix maxQueueSize0 t0, none⟩ evs0).str⟩
          evs).log.written =
        (Log.Sys.run cfg ⟨Log.initFirst cfg 1 path suffix maxQueueSize0 t0, none⟩
            evs0).log.written ++
          [(Log.initFileName cfg path suffix t0,
            Log.timeStamp c ++ Log.levelTitle c.level ++ c.msg ++ ['\n'])]) := by
  refine ⟨?_, ?_, ?_⟩
  · rintro ⟨cfg, W, hL, h⟩
    have h1 := h "./log".toList ".log".toList (Log.january 15 7 0 0)
      ⟨1, List.replicate W 'x', Log.january 15 8 0 0, 0, W⟩ rfl ⟨rfl, rfl, rfl⟩
    have hw := Log.write_written_sync cfg
      (⟨1, List.replicate W 'x', Log.january 15 8 0 0, 0, W⟩ : Log.Call)
      (rfl : (Log.initFirst cfg 1 "./log".toList ".log".toList 0
        (Log.january 15 7 0 0)).isAsync_ = false)
    have h2 : (Log.writes cfg (Log.initFirst cfg 1 "./log".toList ".log".toList 0
        (Log.january 15 7 0 0)) [⟨1, List.replicate W 'x', Log.january 15 8 0 0, 0, W⟩]).written =
        (Log.write cfg (Log.initFirst cfg 1 "./log".toList ".log".toList 0
          (Log.january 15 7 0 0)) ⟨1, List.replicate W 'x', Log.january 15 8 0 0, 0, W⟩).written :=
      rfl
    rw [h2, hw] at h1
    have h3 : (Log.initFirst cfg 1 "./log".toList ".log".toList 0
        (Log.january 15 7 0 0)).written = [] := rfl
    have h5 : (Log.initFirst cfg 1 "./log".toList ".log".toList 0
        (Log.january 15 7 0 0)).buff_ = [] := rfl
    rw [h3, h5, List.nil_append, List.nil_append, List.cons.injEq, Prod.mk.injEq] at h1
    have h4 := congrArg List.length h1.1.2
    have h6 := Log.stored_length_le
      (⟨1, List.replicate W 'x', Log.january 15 8 0 0, 0, W⟩ : Log.Call)
    simp only [Log.lineOf, List.length_replicate, List.length_append, List.length_cons,
      List.length_nil] at h4 h6
    omega
  · rintro ⟨cfg, hL, h⟩
    have h1 := h "./log".toList ".log".toList (Log.january 15 7 0 0)
      ⟨1, ['a', Log.NUL, 'b'], Log.january 15 8 0 0, 0, 988⟩ (by decide) ⟨rfl, rfl, rfl⟩
    have hw := Log.write_written_sync cfg
      (⟨1, ['a', Log.NUL, 'b'], Log.january 15 8 0 0, 0, 988⟩ : Log.Call)
      (rfl : (Log.initFirst cfg 1 "./log".toList ".log".toList 0
        (Log.january 15 7 0 0)).isAsync_ = false)
    have h2 : (Log.writes cfg (Log.initFirst cfg 1 "./log".toList ".log".toList 0
        (Log.january 15 7 0 0)) [⟨1, ['a', Log.NUL, 'b'], Log.january 15 8 0 0, 0, 988⟩]).written =
        (Log.write cfg (Log.initFirst cfg 1 "./log".toList ".log".toList 0
          (Log.january 15 7 0 0)) ⟨1, ['a', Log.NUL, 'b'], Log.january 15 8 0 0, 0, 988⟩).written :=
      rfl
    rw [h2, hw] at h1
    have h3 : (Log.initFirst cfg 1 "./log".toList ".log".toList 0
        (Log.january 15 7 0 0)).written = [] := rfl
    have h5 : (Log.initFirst cfg 1 "./log".toList ".log".toList 0
        (Log.january 15 7 0 0)).buff_ = [] := rfl
    rw [h3, h5, List.nil_append, List.nil_append, List.cons.injEq, Prod.mk.injEq] at h1
    exact absurd h1.1.2 (by decide)
  · rintro ⟨cfg, hL, hC, h⟩
    obtain ⟨_, q1, _, w1⟩ := Log.write_push cfg (Log.info "old" (Log.january 15 7 30 0))
      (rfl : (Log.initFirst cfg 1 "./log".toList ".log".toList 1
        (Log.january 15 7 0 0)).isAsync_ = true)
      (rfl : (Log.initFirst cfg 1 "./log".toList ".log".toList 1
        (Log.january 15 7 0 0)).deque_ = some ⟨cfg.dequeCapacity, []⟩)
      hC rfl
    have w0 : (Log.initFirst cfg 1 "./log".toList ".log".toList 1
        (Log.january 15 7 0 0)).written = [] := rfl
    rw [w0] at w1
    have h1 : (Log.Sys.run cfg
        ⟨Log.init cfg
          (Log.write cfg (Log.initFirst cfg 1 "./log".toList ".log".toList 1
            (Log.january 15 7 0 0)) (Log.info "old" (Log.january 15 7 30 0)))
          1 "./log".toList ".log".toList 0 (Log.january 15 7 0 0), none⟩
        (Log.callEvs (Log.info "new" (Log.january 15 8 0 0)) ++
          [Log.Ev.pop, Log.Ev.fputs])).log.written =
        (Log.write cfg (Log.initFirst cfg 1 "./log".toList ".log".toList 1
            (Log.january 15 7 0 0)) (Log.info "old" (Log.january 15 7 30 0))).written ++
          [(Log.initFileName cfg "./log".toList ".log".toList (Log.january 15 7 0 0),
            Log.timeStamp (Log.info "new" (Log.january 15 8 0 0)) ++
              Log.levelTitle (Log.info "new" (Log.january 15 8 0 0)).level ++
              (Log.info "new" (Log.january 15 8 0 0)).msg ++ ['\n'])] :=
      h 1 (Log.callEvs (Log.info "old" (Log.january 15 7 30 0)))
        (Log.callEvs (Log.info "new" (Log.january 15 8 0 0)) ++ [Log.Ev.pop, Log.Ev.fputs])
        "./log".toList ".log".toList (Log.january 15 7 0 0)
        (Log.info "new" (Log.january 15 8 0 0)) (by decide) (by decide) ⟨rfl, rfl, rfl⟩ rfl
    have h2 := congrArg List.length h1
    rw [Log.pending_line_written cfg _ cfg.dequeCapacity
      (Log.lineOf (Log.info "old" (Log.january 15 7 30 0))) 1 "./log".toList ".log".toList
      (Log.january 15 7 0 0) (Log.info "new" (Log.january 15 8 0 0)) (by rw [q1]; rfl),
      List.length_append, w1] at h2
    simp at h2

/-- C1, amended: `Log::init` in synchronous mode (`maxQueueSize <= 0`) on a
logger whose queue, if an earlier `init` built one, holds no line and whose
flush thread holds none (`dq` and `wr` are the queue and the record of writes
the object had before the call), followed by `n <= MAX_LINES` calls of
`Log::write` stamped on the day of `init`, each with a formatted message that
is shorter than the writable bytes of the staging buffer and contains no NUL
character, the steps of the flush thread falling anywhere between the steps of
the calls: no call rotates, and the file opened by `init` receives exactly one
line per call, in call order: time stamp, level tag, formatted message,
newline. -/
theorem Log.write_within_budget (cfg : Log.Config) (dq : Option Log.BlockDeque)
    (wr : List (Log.Str × Log.Str)) (level : Int) (path suffix : Log.Str)
    (maxQueueSize : Int) (t0 : Log.Tm) (cs : List Log.Call) (evs : List Log.Ev)
    (hsync : maxQueueSize ≤ 0) (hq : ∀ q, dq = some q → q.items = [])
    (hevs : evs.filter Log.Ev.isCaller = Log.callsEvs cs)
    (hn : cs.length ≤ cfg.MAX_LINES)
    (hday : ∀ c ∈ cs, Log.SameDay c.t t0)
    (hfit : ∀ c ∈ cs, c.msg.length < c.writable)
    (hnul : ∀ c ∈ cs, Log.NUL ∉ c.msg) :
    (∀ (a b : List Log.Ev) (t : Log.Tm), evs = a ++ Log.Ev.rotate t :: b →
        Log.needRotate cfg
          (Log.Sys.run cfg
            ⟨Log.initCore cfg dq wr level path suffix maxQueueSize t0, none⟩ a).log t = false)
      ∧ (Log.Sys.run cfg
          ⟨Log.initCore cfg dq wr level path suffix maxQueueSize t0, none⟩ evs).log.fp_ =
          Log.initFileName cfg path suffix t0
      ∧ (Log.Sys.run cfg
          ⟨Log.initCore cfg dq wr level path suffix maxQueueSize t0, none⟩ evs).log.written =
          wr ++ cs.map (fun c => (Log.initFileName cfg path suffix t0,
            Log.timeStamp c ++ Log.levelTitle c.level ++ c.msg ++ ['\n'])) := by
  have hquiet := Log.initCore_quiet cfg dq wr level path suffix maxQueueSize t0 hsync hq
  obtain ⟨c1, c2, c3⟩ := Log.sync_writes_core cfg dq wr level path suffix maxQueueSize t0 cs
    hsync hn hday hfit hnul
  have hrun : Log.Sys.run cfg
      ⟨Log.initCore cfg dq wr level path suffix maxQueueSize t0, none⟩ evs =
      ⟨Log.writes cfg (Log.initCore cfg dq wr level path suffix maxQueueSize t0) cs, none⟩ := by
    rw [Log.run_quiet cfg evs _ hquiet, hevs, Log.run_callsEvs]
  refine ⟨?_, ?_, ?_⟩
  · intro a b t he
    have hf : Log.callsEvs cs =
        a.filter Log.Ev.isCaller ++ Log.Ev.rotate t :: b.filter Log.Ev.isCaller := by
      rw [← hevs, he, List.filter_append, List.filter_cons_of_pos rfl]
    obtain ⟨k, hk, hp, ht⟩ := Log.callsEvs_split cs _ t _ hf
    rw [Log.run_quiet cfg a _ hquiet, hp, Log.run_callsEvs, ht]
    exact c1 k hk
  · rw [hrun]
    exact c2
  · rw [hrun]
    exact c3

/-- Witness of C1: a synchronous `init` on a logger that keeps the empty queue
of an earlier asynchronous `init`, then two calls on the day of `init`, with a
budget of three lines and 988 writable bytes for each message; the flush
thread takes its steps between those of the calls. -/
theorem Log.write_within_budget_witness :
    ((0 : Int) ≤ 0 ∧
      [Log.Ev.pop, Log.Ev.rotate ⟨124, 0, 15, 9, 30, 0⟩, Log.Ev.fputs,
        Log.Ev.emit (Log.Call.mk 1 "up".toList ⟨124, 0, 15, 9, 30, 0⟩ 7 988), Log.Ev.pop,
        Log.Ev.rotate ⟨124, 0, 15, 9, 30, 1⟩,
        Log.Ev.emit (Log.Call.mk 3 "down".toList ⟨124, 0, 15, 9, 30, 1⟩ 8 988),
        Log.Ev.fputs].filter Log.Ev.isCaller =
        Log.callsEvs [Log.Call.mk 1 "up".toList ⟨124, 0, 15, 9, 30, 0⟩ 7 988,
          Log.Call.mk 3 "down".toList ⟨124, 0, 15, 9, 30, 1⟩ 8 988]) ∧
      (Log.Sys.run ⟨256, 3, 1000⟩
        ⟨Log.initCore ⟨256, 3, 1000⟩ (some ⟨1000, []⟩) [] 1 "./log".toList ".log".toList 0
          ⟨124, 0, 15, 9, 0, 0⟩, none⟩
        [Log.Ev.pop, Log.Ev.rotate ⟨124, 0, 15, 9, 30, 0⟩, Log.Ev.fputs,
          Log.Ev.emit (Log.Call.mk 1 "up".toList ⟨124, 0, 15, 9, 30, 0⟩ 7 988), Log.Ev.pop,
          Log.Ev.rotate ⟨124, 0, 15, 9, 30, 1⟩,
          Log.Ev.emit (Log.Call.mk 3 "down".toList ⟨124, 0, 15, 9, 30, 1⟩ 8 988),
          Log.Ev.fputs]).log.written =
      [("./log/2024_01_15.log".toList, "2024-01-15 09:30:00.000007 [info] : up\n".toList),
        ("./log/2024_01_15.log".toList, "2024-01-15 09:30:01.000008 [error]: down\n".toList)] :=
  ⟨⟨by decide, by decide⟩,
    ((Log.write_within_budget ⟨256, 3, 1000⟩ (some ⟨1000, []⟩) [] 1 "./log".toList
      ".log".toList 0 ⟨124, 0, 15, 9, 0, 0⟩
      [Log.Call.mk 1 "up".toList ⟨124, 0, 15, 9, 30, 0⟩ 7 988,
        Log.Call.mk 3 "down".toList ⟨124, 0, 15, 9, 30, 1⟩ 8 988]
      [Log.Ev.pop, Log.Ev.rotate ⟨124, 0, 15, 9, 30, 0⟩, Log.Ev.fputs,
        Log.Ev.emit (Log.Call.mk 1 "up".toList ⟨124, 0, 15, 9, 30, 0⟩ 7 988), Log.Ev.pop,
        Log.Ev.rotate ⟨124, 0, 15, 9, 30, 1⟩,
        Log.Ev.emit (Log.Call.mk 3 "down".toList ⟨124, 0, 15, 9, 30, 1⟩ 8 988),
        Log.Ev.fputs]
      (by decide) (fun q h => by cases h; rfl) (by decide) (by decide) (by decide) (by decide)
      (by decide)).2.2).trans (by decide)⟩

namespace ThreadPool

variable {α : Type}

/-! ### Workers and the tasks they hold -/

end ThreadPool

namespace ThreadPool

variable {α : Type}

theorem workerStep_isClosed (p : Pool α) (i : Nat) :
    (workerStep p i).isClosed = p.isClosed := by
  unfold workerStep
  split
  · split
    · rfl
    · split <;> rfl
  · rfl
  · rfl

theorem addsBeforeClose_of_submitted_nil :
    ∀ evs : List (Ev α), submitted evs = [] → addsBeforeClose evs = true := by
  intro evs
  induction evs with
  | nil => intro _; rfl
  | cons ev evs ih =>
    intro h
    cases ev with
    | AddTask task => simp [submitted] at h
    | close => simpa [addsBeforeClose, submitted] using h
    | worker i => simpa [addsBeforeClose, submitted] using ih (by simpa [submitted] using h)

theorem step_admissible (p : Pool α) (ev : Ev α) (evs : List (Ev α))
    (h : Admissible p (ev :: evs)) :
    Admissible (step p ev) evs ∧ (∀ task, ev = Ev.AddTask task → p.isClosed = false) := by
  obtain ⟨h1, h2⟩ := h
  cases ev with
  | AddTask task =>
    have hc : p.isClosed = false := by
      cases hp : p.isClosed with
      | false => rfl
      | true => exact absurd (h2 hp) (by simp [submitted])
    refine ⟨⟨by simpa [addsBeforeClose] using h1, fun hcl => ?_⟩, fun _ _ => hc⟩
    simp [step, AddTask, hc] at hcl
  | close =>
    have hs : submitted evs = [] := by simpa [addsBeforeClose] using h1
    exact ⟨⟨addsBeforeClose_of_submitted_nil evs hs, fun _ => hs⟩, fun _ he => by cases he⟩
  | worker i =>
    refine ⟨⟨by simpa [addsBeforeClose] using h1, fun hcl => ?_⟩, fun _ he => by cases he⟩
    rw [show step p (Ev.worker i) = workerStep p i from rfl, workerStep_isClosed] at hcl
    simpa [submitted] using h2 hcl

theorem admissible_of_append (p : Pool α) :
    ∀ (pre post : List (Ev α)), Admissible p (pre ++ post) → Admissible p pre := by
  intro pre
  induction pre generalizing p with
  | nil => intro post _; exact ⟨rfl, fun _ => rfl⟩
  | cons ev pre ih =>
    intro post h
    obtain ⟨a1, a2⟩ := step_admissible p ev (pre ++ post) h
    obtain ⟨b1, b2⟩ := ih (step p ev) post a1
    obtain ⟨h1, h2⟩ := h
    cases ev with
    | AddTask task =>
      refine ⟨by simpa [addsBeforeClose] using b1, fun hc => ?_⟩
      exact absurd (h2 hc) (by simp [submitted])
    | close =>
      have hs : submitted (pre ++ post) = [] := by simpa [addsBeforeClose] using h1
      have hs2 : submitted pre = [] := b2 rfl
      exact ⟨by simpa [addsBeforeClose] using hs2, fun _ => by simpa [submitted] using hs2⟩
    | worker i =>
      refine ⟨by simpa [addsBeforeClose] using b1, fun hc => ?_⟩
      have := b2 (by rw [show step p (Ev.worker i) = workerStep p i from rfl,
        workerStep_isClosed]; exact hc)
      simpa [submitted] using this

end ThreadPool

